import Mathlib

/-!
Shallow embedding of `src/reproducibility.py` (the content-addressing and
diffing core: `digest_files`, `digest_archive`, `compare_digests`,
`test_reproducibility`), together with theorems settling the claims about it.

Modelling conventions:
- A Python `dict` is an association list in insertion order with unique keys;
  `dinsert` models `d[k] = v` and `{**a, k: v}` (replace in place, else append),
  `pymerge` models `{**a, **b}`, `dget` models `d.get(k)`.
- The filesystem is an inductive tree `FSNode`; `os.path.islink` /
  `os.path.isdir` / `os.listdir` / `open` are modelled by resolving a path
  (a list of name components) in that tree.  Symbolic links are leaves and are
  never followed, exactly as in the source.
- `hashlib.sha256().hexdigest()` is modelled by `sha256hex`, a deterministic
  computable function from the byte stream to 64 lowercase hex characters; no
  claim depends on the particular digest values, only on determinism.
- Archive parsing (`zipfile.ZipFile`) is modelled by an environment
  `ZipFS : String -> Option (List ZipEntry)` giving, per archive path, the
  parsed entry list (`none` = unreadable, raising IOError).
- Exceptions are modelled with `Except PyError`.
-/

/-- Error taxonomy of the program: IOError (unreadable path or archive),
the unsupported-archive-format exception raised by `digest_archive`, and
failure of the operation under test (`subprocess.CalledProcessError`). -/
inductive PyError where
  | ioError
  | unsupportedFormat
  | operationFailure
deriving DecidableEq

/-- A digest map: model of a Python dict from digest keys to digest values,
as an association list in insertion order with unique keys. -/
abbrev DigestMap := List (String × String)

/-- Model of Python `d.get(k)`: the value at the first pair with key `k`. -/
def dget (m : DigestMap) (k : String) : Option String :=
  (m.find? (fun p => p.1 == k)).map (fun p => p.2)

/-- Model of Python `d[k] = v` (also of `{**d, k: v}`): if the key is
present, its value is replaced in place; otherwise the pair is appended. -/
def dinsert (m : DigestMap) (k : String) (v : String) : DigestMap :=
  if m.any (fun p => p.1 == k) then m.map (fun p => if p.1 == k then (k, v) else p)
  else m ++ [(k, v)]

/-- The keys of a digest map, in insertion order. -/
def dkeys (m : DigestMap) : List String := m.map (fun p => p.1)

/-- Model of Python `{**m1, **m2}`: entries of `m2` override entries of `m1`. -/
def pymerge (m1 m2 : DigestMap) : DigestMap :=
  m2.foldl (fun acc p => dinsert acc p.1 p.2) m1

/-- Well-formedness of a digest map as a dict: keys are pairwise distinct. -/
def NodupKeys (m : DigestMap) : Prop := (dkeys m).Nodup

/-- Model of `hashlib.sha256().hexdigest()` over a byte stream: an abstract
deterministic stand-in producing 64 lowercase hexadecimal characters.  The
buffered 64 KiB read loop of `_digest_file` and `_digest_zip_archive` feeds
the whole byte stream to the hash, so it is modelled as a function of the
full content.  No claim depends on the internals of SHA-256. -/
def sha256hex (data : List Nat) : String :=
  let h := data.foldl (fun a b => (a * 65599 + b + 1) % (2 ^ 256)) 0
  String.mk ((Nat.toDigits 16 (2 ^ 256 + h)).drop 1)

/-- Model of `s.encode("utf8")`: a deterministic byte encoding of a string. -/
def strBytes (s : String) : List Nat := s.data.map Char.toNat

/-- Model of `_digest_string`: sha256 hex digest of the encoded string. -/
def _digest_string (s : String) : String := sha256hex (strBytes s)

/-- Model of `json.dumps` for a string (no escaping; the claims never
depend on the JSON escaping rules). -/
def jsonStr (s : String) : String := "\"" ++ s ++ "\""

/-- Model of `json.dumps` for a list of strings, as used on namelists. -/
def jsonStrList (xs : List String) : String :=
  "[" ++ String.intercalate ", " (xs.map jsonStr) ++ "]"

/-- Model of `json.dumps` for the `date_time` tuple of integers. -/
def jsonNatList (xs : List Nat) : String :=
  "[" ++ String.intercalate ", " (xs.map (fun n => toString n)) ++ "]"

/-- Model of `_digest_json` applied to a namelist (a list of strings). -/
def _digest_json_namelist (xs : List String) : String :=
  _digest_string (jsonStrList xs)

/-- Model of `_digest_json` applied to a `date_time` tuple. -/
def _digest_json_date_time (xs : List Nat) : String :=
  _digest_string (jsonNatList xs)

/-- A filesystem node: a symbolic link (with its target string, never
followed), a directory (with its named children), or a regular file
(with its byte content). -/
inductive FSNode where
  | symlink (target : String)
  | dir (children : List (String × FSNode))
  | file (content : List Nat)

/-- A path, as a list of name components; its string form joins them
with "/" as `os.path.join` (kept as pjoin) does. -/
abbrev FPath := List String

/-- Model of `os.path.join(p, name)` for the paths this program builds. -/
def pjoin (p name : String) : String := if p = "" then name else p ++ "/" ++ name

/-- Extend a path string by further components, joining each in turn. -/
def extendPath (s : String) (q : FPath) : String := q.foldl pjoin s

/-- The string form of a component path: its components joined by "/". -/
def pathStr (p : FPath) : String := extendPath "" p

/-- A real filesystem name: nonempty and without a path separator. -/
def canonicalName (s : String) : Bool := (s != "") && !(s.data.contains '/')

/-- A canonical component path: every component is a real filesystem name. -/
def canonicalPath (p : FPath) : Bool := p.all canonicalName

/-- Resolve a component path in a filesystem tree.  Symbolic links are
leaves: resolution never follows them, mirroring the fact that the source
checks `os.path.islink` first and records the link target verbatim.
`none` models a path whose opening raises an IOError. -/
def resolve : FSNode → FPath → Option FSNode
  | n, [] => some n
  | .dir children, c :: rest =>
    match children.find? (fun x => x.1 == c) with
    | some x => resolve x.2 rest
    | none => none
  | .symlink _, _ :: _ => none
  | .file _, _ :: _ => none

mutual
/-- A well-formed filesystem tree, as any real directory tree is: sibling
names are pairwise distinct, nonempty, and contain no "/". -/
def FSNode.good : FSNode → Bool
  | .symlink _ => true
  | .file _ => true
  | .dir children =>
    decide ((children.map (fun c => c.1)).Nodup) && goodChildren children
/-- Well-formedness of a list of named children. -/
def goodChildren : List (String × FSNode) → Bool
  | [] => true
  | c :: rest => canonicalName c.1 && c.2.good && goodChildren rest
end

mutual
/-- The body of `digest_files` for one path that resolved to `node`:
a symlink records `symlink=` plus the link target; a regular file records
`sha256=` plus the content digest (`_digest_file`); a directory is the
recursive call `digest_files([os.path.join(file, name) for name in
os.listdir(file)])`, that is, the loop `digests = {**digests, ...}` over
the children: a left fold of `pymerge` over the children contributions,
starting from the empty dict. -/
def digestNode (path : String) : FSNode → DigestMap
  | .symlink target => [(path, "symlink=" ++ target)]
  | .file content => [(path, "sha256=" ++ sha256hex content)]
  | .dir children => (contribs path children).foldl pymerge []
/-- The per-child contributions of a directory, in `os.listdir` order. -/
def contribs (path : String) : List (String × FSNode) → List DigestMap
  | [] => []
  | c :: rest => digestNode (pjoin path c.1) c.2 :: contribs path rest
end

/-- The loop of `digest_files` with its accumulated dict: each path is
resolved; a path that cannot be opened raises an IOError which propagates,
so no partial map is returned. -/
def digest_files_go (root : FSNode) (acc : DigestMap) : List FPath → Except PyError DigestMap
  | [] => .ok acc
  | p :: rest =>
    match resolve root p with
    | some node => digest_files_go root (pymerge acc (digestNode (pathStr p) node)) rest
    | none => .error .ioError

/-- Model of `digest_files(files)`: digests a list of files and
directories against the filesystem tree `root`, starting from the empty
dict. -/
def digest_files (root : FSNode) (files : List FPath) : Except PyError DigestMap :=
  digest_files_go root [] files

/-- One archive entry as `zipfile` presents it: name, `date_time` tuple,
and decompressed byte content. -/
structure ZipEntry where
  filename : String
  date_time : List Nat
  content : List Nat

/-- The archive environment: per archive path, the parsed entry list;
`none` models an unreadable or corrupt archive (IOError). -/
abbrev ZipFS := String → Option (List ZipEntry)

/-- Model of Python `str.endswith`. -/
def pyEndsWith (s post : String) : Bool := post.data.isSuffixOf s.data

/-- Model of `_digest_zip_archive`: one namelist key, then per entry (in
stored order) a `#date_time` metadata key and a content key.  The content
is read by `ar.open(info.filename)`, which opens the first entry carrying
that name (`List.find?`); that lookup never fails for a listed name. -/
def _digest_zip_archive (archive : String) (entries : List ZipEntry) : DigestMap :=
  let init := dinsert [] (archive ++ "#namelist")
    (_digest_json_namelist (entries.map (fun e => e.filename)))
  entries.foldl
    (fun acc info =>
      let acc1 := dinsert acc (archive ++ "#" ++ info.filename ++ "#date_time")
        (_digest_json_date_time info.date_time)
      match entries.find? (fun e => e.filename == info.filename) with
      | some e => dinsert acc1 (archive ++ "#" ++ info.filename) (sha256hex e.content)
      | none => acc1)
    init

/-- Model of `digest_archive`: the extension check happens first, so an
unsupported extension fails before the archive is ever opened; a supported
extension opens the archive through the `ZipFS` environment. -/
def digest_archive (zfs : ZipFS) (archive : String) : Except PyError DigestMap :=
  if pyEndsWith archive ".zip" || pyEndsWith archive ".jar" || pyEndsWith archive ".war" then
    match zfs archive with
    | some entries => .ok (_digest_zip_archive archive entries)
    | none => .error .ioError
  else .error .unsupportedFormat

/-- Lexicographic comparison of character lists by code point: the order
Python uses to sort strings. -/
def lexLe : List Char → List Char → Bool
  | [], _ => true
  | _ :: _, [] => false
  | a :: as, b :: bs =>
    if a.toNat < b.toNat then true
    else if b.toNat < a.toNat then false
    else lexLe as bs

/-- Lexicographic (code-point) order on keys, as `list.sort()` uses. -/
def keyLe (a b : String) : Bool := lexLe a.data b.data

/-- `keyLe` as a relation, for sorting. -/
def keyOrder (a b : String) : Prop := keyLe a b = true

instance : DecidableRel keyOrder := fun a b => inferInstanceAs (Decidable (keyLe a b = true))

/-- Model of `compare_digests`: the union of both key sets, filtered to
the keys where `get` disagrees (a missing key gives `none`, distinct from
every present value), sorted ascending. -/
def compare_digests (digests1 digests2 : DigestMap) : List String :=
  let all_keys := (dkeys digests1 ++ dkeys digests2).dedup
  let differences := all_keys.filter (fun key => decide (dget digests1 key ≠ dget digests2 key))
  List.insertionSort keyOrder differences

/-- Flatten a `collections.ChainMap` into a single dict with the same
lookup behaviour: the first map of the chain wins on key collisions. -/
def cmFlatten : List DigestMap → DigestMap
  | [] => []
  | m :: rest => pymerge (cmFlatten rest) m

/-- Lookup in a `collections.ChainMap`: first map containing the key wins. -/
def cmGet (maps : List DigestMap) (k : String) : Option String :=
  match maps with
  | [] => none
  | m :: rest =>
    match dget m k with
    | some v => some v
    | none => cmGet rest k

/-- The list comprehension `[digest_archive(ar) for ar in output_archives]`:
archives digested in order, the first failure propagating. -/
def digest_archives (zfs : ZipFS) : List String → Except PyError (List DigestMap)
  | [] => .ok []
  | ar :: rest =>
    match digest_archive zfs ar with
    | .error e => .error e
    | .ok m =>
      match digest_archives zfs rest with
      | .error e => .error e
      | .ok ms => .ok (m :: ms)

/-- Model of the `digest_outputs` closure inside `test_reproducibility`:
`ChainMap(digest_files(output_files + output_archives),
*[digest_archive(ar) for ar in output_archives])`, flattened to a single
dict with the same lookup behaviour. -/
def digest_outputs (root : FSNode) (zfs : ZipFS)
    (output_files output_archives : List FPath) : Except PyError DigestMap :=
  match digest_files root (output_files ++ output_archives) with
  | .error e => .error e
  | .ok fileMap =>
    match digest_archives zfs (output_archives.map pathStr) with
    | .error e => .error e
    | .ok arMaps => .ok (cmFlatten (fileMap :: arMaps))

/-- Model of `test_reproducibility`: the operation is a side-effecting
repeatable unit of work, modelled per round (0 = first invocation,
1 = second) as producing a filesystem tree, or `none` when the invocation
fails abnormally (`subprocess.run(..., check=True)` raising); the archive
contents visible in each round are given by `zfs`.  Run, snapshot, run,
snapshot, compare; every failure propagates. -/
def test_reproducibility (func : Nat → Option FSNode) (zfs : Nat → ZipFS)
    (output_files output_archives : List FPath) : Except PyError (List String) :=
  match func 0 with
  | none => .error .operationFailure
  | some root1 =>
    match digest_outputs root1 (zfs 0) output_files output_archives with
    | .error e => .error e
    | .ok digests1 =>
      match func 1 with
      | none => .error .operationFailure
      | some root2 =>
        match digest_outputs root2 (zfs 1) output_files output_archives with
        | .error e => .error e
        | .ok digests2 => .ok (compare_digests digests1 digests2)

/-! ## Dictionary lemmas -/

theorem dget_cons (k1 v1 : String) (m : DigestMap) (k : String) :
    dget ((k1, v1) :: m) k = if k1 = k then some v1 else dget m k := by
  by_cases h : k1 = k <;> simp [dget, List.find?_cons, h]

theorem mem_dkeys {m : DigestMap} {k : String} : k ∈ dkeys m ↔ ∃ v, (k, v) ∈ m := by
  constructor
  · intro h
    rcases List.mem_map.mp h with ⟨p, hp, hk⟩
    have hpk : p = (k, p.2) := by
      rw [← hk]
    exact ⟨p.2, hpk ▸ hp⟩
  · rintro ⟨v, hv⟩
    exact List.mem_map.mpr ⟨(k, v), hv, rfl⟩

theorem dany_eq_mem (m : DigestMap) (k : String) :
    (m.any (fun p => p.1 == k)) = true ↔ k ∈ dkeys m := by
  rw [List.any_eq_true]
  constructor
  · rintro ⟨p, hp, hpk⟩
    exact mem_dkeys.mpr ⟨p.2, by
      have : p = (k, p.2) := by
        have := eq_of_beq hpk
        rw [← this]
      exact this ▸ hp⟩
  · intro h
    rcases mem_dkeys.mp h with ⟨v, hv⟩
    exact ⟨(k, v), hv, by simp⟩

theorem dget_eq_none {m : DigestMap} {k : String} : dget m k = none ↔ k ∉ dkeys m := by
  induction m with
  | nil => simp [dget, dkeys]
  | cons p rest ih =>
    obtain ⟨k1, v1⟩ := p
    rw [dget_cons]
    by_cases h : k1 = k
    · simp [h, dkeys]
    · simp only [if_neg h, ih, dkeys, List.map_cons, List.mem_cons]
      constructor
      · intro hn hc
        rcases hc with hc | hc
        · exact h hc.symm
        · exact hn hc
      · intro hn hc
        exact hn (Or.inr hc)

theorem dget_mem {m : DigestMap} {k v : String} (h : dget m k = some v) : (k, v) ∈ m := by
  unfold dget at h
  rcases Option.map_eq_some'.mp h with ⟨q, hfind, hv⟩
  have hmem := List.mem_of_find?_eq_some hfind
  have hqk := List.find?_some hfind
  have hq : q = (k, v) := by
    have h1 : q.1 = k := by
      exact eq_of_beq hqk
    rw [← h1, ← hv]
  exact hq ▸ hmem

theorem dget_of_mem {m : DigestMap} {k v : String} (hnd : NodupKeys m)
    (h : (k, v) ∈ m) : dget m k = some v := by
  induction m with
  | nil => cases h
  | cons p rest ih =>
    obtain ⟨k1, v1⟩ := p
    have hnd' : NodupKeys rest := by
      have := (List.nodup_cons.mp hnd).2
      exact this
    have hk1 : k1 ∉ dkeys rest := (List.nodup_cons.mp hnd).1
    rw [dget_cons]
    rcases List.mem_cons.mp h with heq | hmem
    · obtain ⟨h1, h2⟩ := Prod.mk.injEq .. ▸ heq
      simp [h1.symm, h2]
    · by_cases hk : k1 = k
      · exact absurd (hk ▸ mem_dkeys.mpr ⟨v, hmem⟩) hk1
      · simpa [hk] using ih hnd' hmem

theorem dget_replace_ne (m : DigestMap) (k v k' : String) (h : k' ≠ k) :
    dget (m.map (fun p => if p.1 == k then (k, v) else p)) k' = dget m k' := by
  induction m with
  | nil => rfl
  | cons p rest ih =>
    obtain ⟨k1, v1⟩ := p
    by_cases hk : k1 = k
    · subst hk
      simp only [List.map_cons, beq_self_eq_true, if_true]
      rw [dget_cons, dget_cons, if_neg (fun hc => h hc.symm), if_neg (fun hc => h hc.symm), ih]
    · simp only [List.map_cons, beq_eq_false_iff_ne.mpr hk, if_false, Bool.false_eq_true]
      rw [dget_cons, dget_cons, ih]

theorem dget_dinsert (m : DigestMap) (k v k' : String) :
    dget (dinsert m k v) k' = if k = k' then some v else dget m k' := by
  unfold dinsert
  by_cases hmem : (m.any (fun p => p.1 == k)) = true
  · rw [if_pos hmem]
    by_cases h : k = k'
    · subst h
      rcases mem_dkeys.mp ((dany_eq_mem m k).mp hmem) with ⟨w, hw⟩
      rw [if_pos rfl]
      clear hmem
      induction m with
      | nil => cases hw
      | cons p rest ih =>
        obtain ⟨k1, v1⟩ := p
        by_cases hk1 : k1 = k
        · simp only [List.map_cons, hk1, beq_self_eq_true, if_true]
          rw [dget_cons, if_pos rfl]
        · simp only [List.map_cons, beq_eq_false_iff_ne.mpr hk1, if_false, Bool.false_eq_true]
          rw [dget_cons, if_neg hk1]
          rcases List.mem_cons.mp hw with heq | hmem2
          · exact absurd (congrArg Prod.fst heq).symm hk1
          · exact ih hmem2
    · rw [if_neg h]
      exact dget_replace_ne m k v k' (fun hc => h hc.symm)
  · rw [if_neg hmem]
    by_cases h : k = k'
    · subst h
      rw [if_pos rfl]
      have hnone : dget m k = none :=
        dget_eq_none.mpr (fun hc => hmem ((dany_eq_mem m k).mpr hc))
      unfold dget at hnone ⊢
      rw [List.find?_append, Option.map_eq_some']
      rcases Option.map_eq_none'.mp hnone with hfind
      refine ⟨(k, v), ?_, rfl⟩
      rw [hfind]
      simp [List.find?]
    · rw [if_neg h]
      unfold dget
      rw [List.find?_append]
      have hfalse : ((k, v).1 == k') = false := beq_eq_false_iff_ne.mpr h
      have hsingle : List.find? (fun p => p.1 == k') [(k, v)] = none := by
        simp [List.find?_cons, hfalse]
      rw [hsingle, Option.or_none]

theorem dkeys_dinsert (m : DigestMap) (k v : String) :
    dkeys (dinsert m k v) = if k ∈ dkeys m then dkeys m else dkeys m ++ [k] := by
  unfold dinsert
  by_cases hmem : k ∈ dkeys m
  · rw [if_pos ((dany_eq_mem m k).mpr hmem), if_pos hmem]
    unfold dkeys
    rw [List.map_map]
    refine List.map_congr_left ?_
    intro p _
    by_cases hp : p.1 = k
    · simp [hp]
    · simp [hp]
  · rw [if_neg (fun hc => hmem ((dany_eq_mem m k).mp hc)), if_neg hmem]
    unfold dkeys
    rw [List.map_append]
    rfl

theorem mem_dkeys_dinsert {m : DigestMap} {k v k' : String} :
    k' ∈ dkeys (dinsert m k v) ↔ k' ∈ dkeys m ∨ k' = k := by
  rw [dkeys_dinsert]
  by_cases hmem : k ∈ dkeys m
  · rw [if_pos hmem]
    constructor
    · exact Or.inl
    · rintro (h | h)
      · exact h
      · exact h ▸ hmem
  · rw [if_neg hmem]
    simp [List.mem_append]

theorem nodupKeys_dinsert {m : DigestMap} (k v : String) (h : NodupKeys m) :
    NodupKeys (dinsert m k v) := by
  unfold NodupKeys
  rw [dkeys_dinsert]
  by_cases hmem : k ∈ dkeys m
  · rwa [if_pos hmem]
  · rw [if_neg hmem]
    rw [List.nodup_append]
    exact ⟨h, List.nodup_singleton k, by simpa using hmem⟩

theorem mem_dinsert {m : DigestMap} {k v : String} {x : String × String}
    (h : x ∈ dinsert m k v) : x ∈ m ∨ x = (k, v) := by
  unfold dinsert at h
  by_cases hmem : (m.any (fun p => p.1 == k)) = true
  · rw [if_pos hmem] at h
    rcases List.mem_map.mp h with ⟨p, hp, hpx⟩
    by_cases hpk : p.1 = k
    · right
      rw [← hpx]
      simp [hpk]
    · left
      rw [← hpx]
      simpa [beq_eq_false_iff_ne.mpr hpk] using hp
  · rw [if_neg hmem] at h
    rcases List.mem_append.mp h with h | h
    · exact Or.inl h
    · exact Or.inr (List.mem_singleton.mp h)

theorem pymerge_nil (m : DigestMap) : pymerge m [] = m := rfl

theorem pymerge_cons (m1 : DigestMap) (k v : String) (rest : DigestMap) :
    pymerge m1 ((k, v) :: rest) = pymerge (dinsert m1 k v) rest := rfl

theorem dget_pymerge (m1 : DigestMap) {m2 : DigestMap} (h2 : NodupKeys m2) (k : String) :
    dget (pymerge m1 m2) k = (dget m2 k).or (dget m1 k) := by
  induction m2 generalizing m1 with
  | nil => simp [pymerge_nil, dget]
  | cons p rest ih =>
    obtain ⟨k2, v2⟩ := p
    have hnd : NodupKeys rest := (List.nodup_cons.mp h2).2
    have hk2 : k2 ∉ dkeys rest := (List.nodup_cons.mp h2).1
    rw [pymerge_cons, ih (dinsert m1 k2 v2) hnd, dget_cons, dget_dinsert]
    by_cases h : k2 = k
    · subst h
      rw [if_pos rfl, if_pos rfl, dget_eq_none.mpr hk2]
      rfl
    · rw [if_neg h, if_neg h]

theorem nodupKeys_pymerge {m1 : DigestMap} (m2 : DigestMap) (h1 : NodupKeys m1) :
    NodupKeys (pymerge m1 m2) := by
  induction m2 generalizing m1 with
  | nil => exact h1
  | cons p rest ih =>
    obtain ⟨k2, v2⟩ := p
    rw [pymerge_cons]
    exact ih (nodupKeys_dinsert k2 v2 h1)


theorem mem_pymerge {m1 m2 : DigestMap} {x : String × String}
    (h : x ∈ pymerge m1 m2) : x ∈ m1 ∨ x ∈ m2 := by
  induction m2 generalizing m1 with
  | nil => exact Or.inl h
  | cons p rest ih =>
    obtain ⟨k2, v2⟩ := p
    rw [pymerge_cons] at h
    rcases ih h with h1 | h1
    · rcases mem_dinsert h1 with h2 | h2
      · exact Or.inl h2
      · exact Or.inr (List.mem_cons.mpr (Or.inl h2))
    · exact Or.inr (List.mem_cons.mpr (Or.inr h1))

theorem mem_dkeys_pymerge {m1 m2 : DigestMap} {k : String} :
    k ∈ dkeys (pymerge m1 m2) ↔ k ∈ dkeys m1 ∨ k ∈ dkeys m2 := by
  induction m2 generalizing m1 with
  | nil => simp [pymerge_nil, dkeys]
  | cons p rest ih =>
    obtain ⟨k2, v2⟩ := p
    rw [pymerge_cons, ih, mem_dkeys_dinsert]
    unfold dkeys
    simp only [List.map_cons, List.mem_cons]
    tauto

/-! ## Order lemmas for the sort -/

theorem lexLe_refl (as : List Char) : lexLe as as = true := by
  induction as with
  | nil => rfl
  | cons a as ih => simp [lexLe, ih]

theorem lexLe_total (as bs : List Char) : lexLe as bs = true ∨ lexLe bs as = true := by
  induction as generalizing bs with
  | nil => exact Or.inl rfl
  | cons a as ih =>
    cases bs with
    | nil => exact Or.inr rfl
    | cons b bs =>
      rcases Nat.lt_trichotomy a.toNat b.toNat with h | h | h
      · left
        simp [lexLe, h]
      · have h1 : ¬a.toNat < b.toNat := by omega
        have h2 : ¬b.toNat < a.toNat := by omega
        rcases ih bs with hc | hc
        · left
          simp [lexLe, h1, h2, hc]
        · right
          simp [lexLe, h1, h2, hc]
      · right
        simp [lexLe, h]

theorem lexLe_trans {as bs cs : List Char} (h1 : lexLe as bs = true)
    (h2 : lexLe bs cs = true) : lexLe as cs = true := by
  induction as generalizing bs cs with
  | nil => rfl
  | cons a as ih =>
    cases bs with
    | nil => simp [lexLe] at h1
    | cons b bs =>
      cases cs with
      | nil => simp [lexLe] at h2
      | cons c cs =>
        by_cases hab : a.toNat < b.toNat
        · by_cases hbc : b.toNat < c.toNat
          · have : a.toNat < c.toNat := by omega
            simp [lexLe, this]
          · by_cases hcb : c.toNat < b.toNat
            · simp [lexLe, hbc, hcb] at h2
            · have : a.toNat < c.toNat := by omega
              simp [lexLe, this]
        · by_cases hba : b.toNat < a.toNat
          · simp [lexLe, hab, hba] at h1
          · have hab' : a.toNat = b.toNat := by omega
            by_cases hbc : b.toNat < c.toNat
            · have : a.toNat < c.toNat := by omega
              simp [lexLe, this]
            · by_cases hcb : c.toNat < b.toNat
              · simp [lexLe, hbc, hcb] at h2
              · have h1' : lexLe as bs = true := by
                  simpa [lexLe, hab, hba] using h1
                have h2' : lexLe bs cs = true := by
                  simpa [lexLe, hbc, hcb] using h2
                have hac : ¬a.toNat < c.toNat := by omega
                have hca : ¬c.toNat < a.toNat := by omega
                simp [lexLe, hac, hca, ih h1' h2']

instance : IsTotal String keyOrder :=
  ⟨fun a b => lexLe_total a.data b.data⟩

instance : IsTrans String keyOrder :=
  ⟨fun _ _ _ h1 h2 => lexLe_trans h1 h2⟩

/-! ## Comparator lemmas -/

/-- Membership in the comparator output is exactly disagreement of `get`. -/
theorem mem_compare_digests (d1 d2 : DigestMap) (k : String) :
    k ∈ compare_digests d1 d2 ↔ dget d1 k ≠ dget d2 k := by
  unfold compare_digests
  rw [(List.perm_insertionSort keyOrder _).mem_iff, List.mem_filter]
  constructor
  · intro h
    exact of_decide_eq_true h.2
  · intro h
    refine ⟨List.mem_dedup.mpr ?_, decide_eq_true h⟩
    rw [List.mem_append]
    by_cases h1 : (dget d1 k).isSome
    · left
      rcases Option.isSome_iff_exists.mp h1 with ⟨v, hv⟩
      exact mem_dkeys.mpr ⟨v, dget_mem hv⟩
    · right
      have hn : dget d1 k = none := Option.not_isSome_iff_eq_none.mp h1
      have h2 : dget d2 k ≠ none := fun hc => h (hn ▸ hc ▸ rfl)
      rcases Option.ne_none_iff_exists'.mp h2 with ⟨v, hv⟩
      exact mem_dkeys.mpr ⟨v, dget_mem hv⟩

/-- The comparator output is sorted in the lexicographic key order. -/
theorem sorted_compare_digests (d1 d2 : DigestMap) :
    List.Sorted keyOrder (compare_digests d1 d2) :=
  List.sorted_insertionSort keyOrder _

/-- The comparator output lists each differing key once. -/
theorem nodup_compare_digests (d1 d2 : DigestMap) :
    (compare_digests d1 d2).Nodup := by
  unfold compare_digests
  exact (List.perm_insertionSort keyOrder _).symm.nodup
    ((List.nodup_dedup (dkeys d1 ++ dkeys d2)).filter _)

/-! ## Digest fold lemmas -/

theorem nodupKeys_foldl_pymerge (ms : List DigestMap) (acc : DigestMap)
    (h : NodupKeys acc) : NodupKeys (ms.foldl pymerge acc) := by
  induction ms generalizing acc with
  | nil => exact h
  | cons m rest ih => exact ih _ (nodupKeys_pymerge _ h)

theorem nodupKeys_digestNode (path : String) (n : FSNode) :
    NodupKeys (digestNode path n) := by
  cases n with
  | symlink t => exact List.nodup_singleton path
  | file c => exact List.nodup_singleton path
  | dir children => exact nodupKeys_foldl_pymerge _ [] List.nodup_nil

theorem mem_contribs {path : String} {children : List (String × FSNode)}
    {m : DigestMap} (h : m ∈ contribs path children) :
    ∃ c ∈ children, m = digestNode (pjoin path c.1) c.2 := by
  induction children with
  | nil => cases h
  | cons c rest ih =>
    rcases List.mem_cons.mp h with h1 | h1
    · exact ⟨c, List.mem_cons_self c rest, h1⟩
    · rcases ih h1 with ⟨c', hc', hm⟩
      exact ⟨c', List.mem_cons_of_mem c hc', hm⟩

/-- The value a list of contributions assigns to a key, later contributions
overriding. -/
def contribGet (root : FSNode) (ps : List FPath) (k : String) : Option String :=
  ps.reverse.findSome? (fun p =>
    match resolve root p with
    | some n => dget (digestNode (pathStr p) n) k
    | none => none)

theorem dget_foldl_pymerge (ms : List DigestMap) (acc : DigestMap)
    (hms : ∀ m ∈ ms, NodupKeys m) (k : String) :
    dget (ms.foldl pymerge acc) k =
      (ms.reverse.findSome? (fun m => dget m k)).or (dget acc k) := by
  induction ms generalizing acc with
  | nil => rfl
  | cons m rest ih =>
    have hm : NodupKeys m := hms m (List.mem_cons_self m rest)
    have hrest : ∀ m' ∈ rest, NodupKeys m' :=
      fun m' hm' => hms m' (List.mem_cons_of_mem m hm')
    show dget (rest.foldl pymerge (pymerge acc m)) k = _
    rw [ih _ hrest, dget_pymerge _ hm, List.reverse_cons, List.findSome?_append]
    have hsingle : List.findSome? (fun m' => dget m' k) [m] = dget m k := by
      cases hd : dget m k <;> simp [List.findSome?, hd]
    rw [hsingle, Option.or_assoc]

theorem dget_digest_files_go {root : FSNode} {acc : DigestMap} {ps : List FPath}
    {m : DigestMap} (hacc : NodupKeys acc)
    (h : digest_files_go root acc ps = .ok m) (k : String) :
    dget m k = (contribGet root ps k).or (dget acc k) := by
  induction ps generalizing acc with
  | nil =>
    cases h
    rfl
  | cons p rest ih =>
    unfold digest_files_go at h
    cases hres : resolve root p with
    | none => rw [hres] at h; cases h
    | some n =>
      rw [hres] at h
      have hc : NodupKeys (digestNode (pathStr p) n) := nodupKeys_digestNode _ _
      rw [ih (nodupKeys_pymerge _ hacc) h, dget_pymerge _ hc]
      unfold contribGet
      rw [List.reverse_cons, List.findSome?_append]
      have hsingle : List.findSome? (fun q =>
          match resolve root q with
          | some n => dget (digestNode (pathStr q) n) k
          | none => none) [p] = dget (digestNode (pathStr p) n) k := by
        cases hd : dget (digestNode (pathStr p) n) k <;>
          simp [List.findSome?, hres, hd]
      rw [hsingle, Option.or_assoc]

theorem nodupKeys_digest_files_go {root : FSNode} {acc : DigestMap} {ps : List FPath}
    {m : DigestMap} (hacc : NodupKeys acc)
    (h : digest_files_go root acc ps = .ok m) : NodupKeys m := by
  induction ps generalizing acc with
  | nil =>
    cases h
    exact hacc
  | cons p rest ih =>
    unfold digest_files_go at h
    cases hres : resolve root p with
    | none => rw [hres] at h; cases h
    | some n =>
      rw [hres] at h
      exact ih (nodupKeys_pymerge _ hacc) h

theorem resolve_of_go_ok {root : FSNode} {acc : DigestMap} {ps : List FPath}
    {m : DigestMap} (h : digest_files_go root acc ps = .ok m) :
    ∀ p ∈ ps, ∃ n, resolve root p = some n := by
  induction ps generalizing acc with
  | nil => intro p hp; cases hp
  | cons q rest ih =>
    unfold digest_files_go at h
    cases hres : resolve root q with
    | none => rw [hres] at h; cases h
    | some n =>
      rw [hres] at h
      intro p hp
      rcases List.mem_cons.mp hp with hq | hq
      · exact ⟨n, hq ▸ hres⟩
      · exact ih h p hq

theorem digest_files_go_append (root : FSNode) (acc : DigestMap) (ps qs : List FPath) :
    digest_files_go root acc (ps ++ qs) =
      match digest_files_go root acc ps with
      | .ok m => digest_files_go root m qs
      | .error e => .error e := by
  induction ps generalizing acc with
  | nil => rfl
  | cons p rest ih =>
    simp only [List.cons_append, digest_files_go]
    cases hres : resolve root p with
    | none => rfl
    | some n => exact ih (pymerge acc (digestNode (pathStr p) n))

/-! ## Claim C1 and C9 -/

/-- C1: `compare_digests(A, B)` contains a key exactly when `A.get(key)`
and `B.get(key)` differ, a missing key (`none`) being distinct from every
present value (so a key present in only one map is always reported), and
the output is sorted ascending in the lexicographic (code-point) key
order. -/
theorem compare_digests_correct (A B : DigestMap) :
    (∀ k, k ∈ compare_digests A B ↔ dget A k ≠ dget B k) ∧
    List.Sorted keyOrder (compare_digests A B) :=
  ⟨fun k => mem_compare_digests A B k, sorted_compare_digests A B⟩

/-- C9: the comparator is reflexive (`compare_digests(M, M) = []`) and its
result, viewed as an unordered set of keys, is symmetric in the two maps. -/
theorem compare_digests_refl_and_symm :
    (∀ M : DigestMap, compare_digests M M = []) ∧
    (∀ M1 M2 : DigestMap, ∀ k,
      k ∈ compare_digests M1 M2 ↔ k ∈ compare_digests M2 M1) := by
  constructor
  · intro M
    refine List.eq_nil_iff_forall_not_mem.mpr (fun k hk => ?_)
    exact (mem_compare_digests M M k).mp hk rfl
  · intro M1 M2 k
    rw [mem_compare_digests, mem_compare_digests]
    exact ne_comm

/-! ## Path and string lemmas -/

theorem extendPath_append (s : String) (q1 q2 : FPath) :
    extendPath s (q1 ++ q2) = extendPath (extendPath s q1) q2 :=
  List.foldl_append pjoin s q1 q2

theorem extendPath_cons (s : String) (c : String) (q : FPath) :
    extendPath s (c :: q) = extendPath (pjoin s c) q := rfl

theorem pathStr_append (p q : FPath) :
    pathStr (p ++ q) = extendPath (pathStr p) q :=
  extendPath_append "" p q

theorem pjoin_data (s name : String) (hs : s.data ≠ []) :
    (pjoin s name).data = s.data ++ '/' :: name.data := by
  have h : s ≠ "" := fun hc => hs (by rw [hc])
  unfold pjoin
  rw [if_neg h, String.data_append, String.data_append, List.append_assoc]
  rfl

theorem extendPath_data (q : FPath) (s : String) (hs : s.data ≠ []) :
    (extendPath s q).data = s.data ++ q.flatMap (fun c => '/' :: c.data) := by
  induction q generalizing s with
  | nil => simp [extendPath]
  | cons c rest ih =>
    rw [extendPath_cons]
    have hjoin : (pjoin s c).data = s.data ++ '/' :: c.data := pjoin_data s c hs
    have hne : (pjoin s c).data ≠ [] := by
      rw [hjoin]
      simp
    rw [ih (pjoin s c) hne, hjoin, List.flatMap_cons, List.append_assoc]

theorem canonicalName_spec {s : String} (h : canonicalName s = true) :
    s.data ≠ [] ∧ ∀ ch ∈ s.data, ch ≠ '/' := by
  unfold canonicalName at h
  rw [Bool.and_eq_true] at h
  obtain ⟨h1, h2⟩ := h
  constructor
  · intro hc
    have hs : s = "" := String.ext hc
    rw [hs] at h1
    simp at h1
  · intro ch hch hc
    rw [Bool.not_eq_true'] at h2
    rw [hc] at hch
    have hmem : s.data.contains '/' = true := List.elem_eq_true_of_mem hch
    rw [hmem] at h2
    cases h2

theorem takeWhile_append_sep {sep : Char} {u v : List Char}
    (hu : ∀ ch ∈ u, ch ≠ sep) (hv : v = [] ∨ ∃ w, v = sep :: w) :
    (u ++ v).takeWhile (fun ch => ch != sep) = u := by
  induction u with
  | nil =>
    rcases hv with hv | ⟨w, hv⟩ <;> subst hv <;> simp [List.takeWhile]
  | cons a u ih =>
    have ha : a ≠ sep := hu a (List.mem_cons_self a u)
    rw [List.cons_append, List.takeWhile_cons]
    simp only [bne_iff_ne, ne_eq, ha, not_false_eq_true, if_true]
    rw [ih (fun ch hch => hu ch (List.mem_cons_of_mem a hch))]

theorem sep_head_cancel {sep : Char} {u1 u2 v1 v2 : List Char}
    (h : u1 ++ v1 = u2 ++ v2)
    (hu1 : ∀ ch ∈ u1, ch ≠ sep) (hu2 : ∀ ch ∈ u2, ch ≠ sep)
    (hv1 : v1 = [] ∨ ∃ w, v1 = sep :: w) (hv2 : v2 = [] ∨ ∃ w, v2 = sep :: w) :
    u1 = u2 ∧ v1 = v2 := by
  have h1 := takeWhile_append_sep hu1 hv1
  have h2 := takeWhile_append_sep hu2 hv2
  rw [h] at h1
  have hu : u1 = u2 := h1.symm.trans h2
  subst hu
  exact ⟨rfl, List.append_cancel_left h⟩

theorem flatMap_sep_shape (r : FPath) :
    r.flatMap (fun x => '/' :: x.data) = [] ∨
      ∃ w, r.flatMap (fun x => '/' :: x.data) = '/' :: w := by
  cases r with
  | nil => exact Or.inl rfl
  | cons c rest =>
    right
    rw [List.flatMap_cons]
    exact ⟨c.data ++ rest.flatMap (fun x => '/' :: x.data), rfl⟩

theorem flatMap_sep_inj {r1 r2 : FPath}
    (h1 : canonicalPath r1 = true) (h2 : canonicalPath r2 = true)
    (h : r1.flatMap (fun x => '/' :: x.data) = r2.flatMap (fun x => '/' :: x.data)) :
    r1 = r2 := by
  induction r1 generalizing r2 with
  | nil =>
    cases r2 with
    | nil => rfl
    | cons c r => simp [List.flatMap_cons] at h
  | cons c1 rest1 ih =>
    cases r2 with
    | nil => simp [List.flatMap_cons] at h
    | cons c2 rest2 =>
      rw [List.flatMap_cons, List.flatMap_cons, List.cons_append, List.cons_append] at h
      have h' : c1.data ++ rest1.flatMap (fun x => '/' :: x.data) =
          c2.data ++ rest2.flatMap (fun x => '/' :: x.data) := List.tail_eq_of_cons_eq h
      unfold canonicalPath at h1 h2
      rw [List.all_cons, Bool.and_eq_true] at h1 h2
      have hc1 := canonicalName_spec h1.1
      have hc2 := canonicalName_spec h2.1
      have hcan := sep_head_cancel h' hc1.2 hc2.2 (flatMap_sep_shape rest1)
        (flatMap_sep_shape rest2)
      have hrest : rest1 = rest2 := ih h1.2 h2.2 hcan.2
      have hc : c1 = c2 := String.ext hcan.1
      rw [hc, hrest]

theorem pjoin_empty (c : String) : pjoin "" c = c := by
  unfold pjoin
  rw [if_pos rfl]

theorem pathStr_data_cons (c : String) (rest : FPath) (hc : c.data ≠ []) :
    (pathStr (c :: rest)).data = c.data ++ rest.flatMap (fun x => '/' :: x.data) := by
  unfold pathStr
  rw [extendPath_cons, pjoin_empty, extendPath_data rest c hc]

theorem pathStr_inj {p1 p2 : FPath} (h1 : canonicalPath p1 = true)
    (h2 : canonicalPath p2 = true) (h : pathStr p1 = pathStr p2) : p1 = p2 := by
  cases p1 with
  | nil =>
    cases p2 with
    | nil => rfl
    | cons c2 r2 =>
      exfalso
      unfold canonicalPath at h2
      rw [List.all_cons, Bool.and_eq_true] at h2
      have hc2 := canonicalName_spec h2.1
      have hd : (pathStr ([] : FPath)).data = (pathStr (c2 :: r2)).data := by rw [h]
      rw [pathStr_data_cons c2 r2 hc2.1] at hd
      cases hc : c2.data with
      | nil => exact hc2.1 hc
      | cons a w =>
        rw [hc] at hd
        cases hd
  | cons c1 r1 =>
    cases p2 with
    | nil =>
      exfalso
      unfold canonicalPath at h1
      rw [List.all_cons, Bool.and_eq_true] at h1
      have hc1 := canonicalName_spec h1.1
      have hd : (pathStr (c1 :: r1)).data = (pathStr ([] : FPath)).data := by rw [h]
      rw [pathStr_data_cons c1 r1 hc1.1] at hd
      cases hc : c1.data with
      | nil => exact hc1.1 hc
      | cons a w =>
        rw [hc] at hd
        cases hd
    | cons c2 r2 =>
      unfold canonicalPath at h1 h2
      rw [List.all_cons, Bool.and_eq_true] at h1 h2
      have hc1 := canonicalName_spec h1.1
      have hc2 := canonicalName_spec h2.1
      have hd : (pathStr (c1 :: r1)).data = (pathStr (c2 :: r2)).data := by rw [h]
      rw [pathStr_data_cons c1 r1 hc1.1, pathStr_data_cons c2 r2 hc2.1] at hd
      have hcan := sep_head_cancel hd hc1.2 hc2.2 (flatMap_sep_shape r1)
        (flatMap_sep_shape r2)
      have hc : c1 = c2 := String.ext hcan.1
      have hr : r1 = r2 := flatMap_sep_inj h1.2 h2.2 hcan.2
      rw [hc, hr]

/-! ## Tree induction and resolution lemmas -/

theorem FSNode.rec_size {P : FSNode → Prop}
    (hsym : ∀ t, P (.symlink t)) (hfile : ∀ c, P (.file c))
    (hdir : ∀ children, (∀ c ∈ children, P c.2) → P (.dir children)) :
    ∀ n, P n := by
  have key : ∀ (N : Nat) (n : FSNode), sizeOf n ≤ N → P n := by
    intro N
    induction N with
    | zero =>
      intro n hn
      exfalso
      cases n <;> simp at hn
    | succ N ih =>
      intro n hn
      cases n with
      | symlink t => exact hsym t
      | file c => exact hfile c
      | dir children =>
        refine hdir children (fun c hc => ?_)
        have h2 : sizeOf c < sizeOf children := List.sizeOf_lt_of_mem hc
        have h1 : sizeOf c.2 < sizeOf c := by
          obtain ⟨a, b⟩ := c
          simp
        have h3 : sizeOf (FSNode.dir children) = 1 + sizeOf children := by
          simp
        rw [h3] at hn
        exact ih c.2 (by omega)
  exact fun n => key (sizeOf n) n (Nat.le_refl _)

theorem resolve_append (n : FSNode) (q1 q2 : FPath) :
    resolve n (q1 ++ q2) = (resolve n q1).bind (fun m => resolve m q2) := by
  induction q1 generalizing n with
  | nil => cases n <;> rfl
  | cons c rest ih =>
    cases n with
    | symlink t => rfl
    | file co => rfl
    | dir children =>
      show (match children.find? (fun x => x.1 == c) with
        | some x => resolve x.2 (rest ++ q2)
        | none => none) =
        (Option.bind (match children.find? (fun x => x.1 == c) with
          | some (x : String × FSNode) => resolve x.2 rest
          | none => none) (fun m => resolve m q2))
      cases hf : children.find? (fun x => x.1 == c) with
      | none => rfl
      | some x => exact ih x.2

theorem goodChildren_spec {children : List (String × FSNode)}
    (h : goodChildren children = true) :
    ∀ c ∈ children, canonicalName c.1 = true ∧ c.2.good = true := by
  induction children with
  | nil =>
    intro c hc
    cases hc
  | cons d rest ih =>
    have hd : goodChildren (d :: rest) =
        (canonicalName d.1 && d.2.good && goodChildren rest) := rfl
    rw [hd, Bool.and_eq_true, Bool.and_eq_true] at h
    intro c hc
    rcases List.mem_cons.mp hc with h1 | h1
    · exact h1 ▸ ⟨h.1.1, h.1.2⟩
    · exact ih h.2 c h1

theorem good_dir_spec {children : List (String × FSNode)}
    (h : FSNode.good (.dir children) = true) :
    (children.map (fun c => c.1)).Nodup ∧
      ∀ c ∈ children, canonicalName c.1 = true ∧ c.2.good = true := by
  have hd : FSNode.good (.dir children) =
      (decide ((children.map (fun c => c.1)).Nodup) && goodChildren children) := rfl
  rw [hd, Bool.and_eq_true] at h
  exact ⟨of_decide_eq_true h.1, goodChildren_spec h.2⟩

theorem good_resolve {root : FSNode} {p : FPath} {n : FSNode}
    (hg : root.good = true) (h : resolve root p = some n) : n.good = true := by
  induction p generalizing root with
  | nil =>
    cases root <;> (cases h; exact hg)
  | cons c rest ih =>
    cases root with
    | symlink t => cases h
    | file co => cases h
    | dir children =>
      revert h
      show (match children.find? (fun x => x.1 == c) with
        | some x => resolve x.2 rest
        | none => none) = some n → _
      cases hf : children.find? (fun x => x.1 == c) with
      | none =>
        intro h
        cases h
      | some x =>
        intro h
        have hx := List.mem_of_find?_eq_some hf
        exact ih ((good_dir_spec hg).2 x hx).2 h

theorem find?_name_of_nodup {children : List (String × FSNode)} {c : String × FSNode}
    (hnd : (children.map (fun x => x.1)).Nodup) (hc : c ∈ children) :
    children.find? (fun x => x.1 == c.1) = some c := by
  induction children with
  | nil => cases hc
  | cons d rest ih =>
    rcases List.mem_cons.mp hc with h1 | h1
    · subst h1
      simp [List.find?_cons]
    · have hnd' : (rest.map (fun x => x.1)).Nodup := (List.nodup_cons.mp hnd).2
      have hd : d.1 ∉ rest.map (fun x => x.1) := (List.nodup_cons.mp hnd).1
      have hne : d.1 ≠ c.1 := by
        intro hc2
        exact hd (hc2 ▸ List.mem_map.mpr ⟨c, h1, rfl⟩)
      have hfalse : (d.1 == c.1) = false := beq_eq_false_iff_ne.mpr hne
      simp [List.find?_cons, hfalse, ih hnd' h1]

/-! ## findSome? helpers -/

theorem findSome?_exists {α β : Type} {f : α → Option β} {l : List α} {b : β}
    (h : l.findSome? f = some b) : ∃ a ∈ l, f a = some b := by
  induction l with
  | nil => cases h
  | cons a rest ih =>
    rw [List.findSome?_cons] at h
    cases hf : f a with
    | some v =>
      rw [hf] at h
      cases h
      exact ⟨a, List.mem_cons_self a rest, hf⟩
    | none =>
      rw [hf] at h
      rcases ih h with ⟨a', ha', hfa'⟩
      exact ⟨a', List.mem_cons_of_mem a ha', hfa'⟩

theorem findSome?_ne_none {α β : Type} {f : α → Option β} {l : List α} {a : α}
    (ha : a ∈ l) {b : β} (hf : f a = some b) : l.findSome? f ≠ none := by
  intro hc
  rw [List.findSome?_eq_none_iff] at hc
  rw [hc a ha] at hf
  cases hf

/-! ## Characterizing the keys and values of a digest -/

/-- The digest value recorded for a leaf node; a directory is not a leaf. -/
def leafValue : FSNode → Option String
  | .symlink target => some ("symlink=" ++ target)
  | .file content => some ("sha256=" ++ sha256hex content)
  | .dir _ => none

theorem mem_contribs_of_mem {path : String} {children : List (String × FSNode)}
    {c : String × FSNode} (hc : c ∈ children) :
    digestNode (pjoin path c.1) c.2 ∈ contribs path children := by
  induction children with
  | nil => cases hc
  | cons d rest ih =>
    have heq : contribs path (d :: rest) =
        digestNode (pjoin path d.1) d.2 :: contribs path rest := rfl
    rw [heq]
    rcases List.mem_cons.mp hc with h1 | h1
    · subst h1
      exact List.mem_cons_self _ _
    · exact List.mem_cons_of_mem _ (ih h1)

theorem dget_digestNode_dir (s : String) (children : List (String × FSNode))
    (k : String) :
    dget (digestNode s (.dir children)) k =
      (contribs s children).reverse.findSome? (fun m => dget m k) := by
  have heq : digestNode s (.dir children) = (contribs s children).foldl pymerge [] := rfl
  rw [heq, dget_foldl_pymerge]
  · rw [show dget ([] : DigestMap) k = none from rfl, Option.or_none]
  · intro m hm
    rcases mem_contribs hm with ⟨c, _, hmeq⟩
    exact hmeq ▸ nodupKeys_digestNode _ _

theorem dget_digestNode_char (n : FSNode) :
    n.good = true → ∀ (s k v : String), dget (digestNode s n) k = some v →
      ∃ q : FPath, canonicalPath q = true ∧ k = extendPath s q ∧
        (resolve n q).bind leafValue = some v := by
  induction n using FSNode.rec_size with
  | hsym t =>
    intro _ s k v h
    have heq : digestNode s (.symlink t) = [(s, "symlink=" ++ t)] := rfl
    rw [heq, dget_cons] at h
    by_cases hsk : s = k
    · rw [if_pos hsk] at h
      exact ⟨[], rfl, hsk.symm, h⟩
    · rw [if_neg hsk] at h
      exact Option.noConfusion h
  | hfile c =>
    intro _ s k v h
    have heq : digestNode s (.file c) = [(s, "sha256=" ++ sha256hex c)] := rfl
    rw [heq, dget_cons] at h
    by_cases hsk : s = k
    · rw [if_pos hsk] at h
      exact ⟨[], rfl, hsk.symm, h⟩
    · rw [if_neg hsk] at h
      exact Option.noConfusion h
  | hdir children ih =>
    intro hg s k v h
    obtain ⟨hnd, hspec⟩ := good_dir_spec hg
    rw [dget_digestNode_dir] at h
    rcases findSome?_exists h with ⟨m, hm, hdg⟩
    rw [List.mem_reverse] at hm
    rcases mem_contribs hm with ⟨c, hc, hmeq⟩
    subst hmeq
    rcases ih c hc ((hspec c hc).2) (pjoin s c.1) k v hdg with ⟨q, hq, hk, hres⟩
    refine ⟨c.1 :: q, ?_, ?_, ?_⟩
    · unfold canonicalPath
      rw [List.all_cons, Bool.and_eq_true]
      exact ⟨(hspec c hc).1, hq⟩
    · rw [hk, extendPath_cons]
    · have hf : children.find? (fun x => x.1 == c.1) = some c :=
        find?_name_of_nodup hnd hc
      show (Option.bind (match children.find? (fun x => x.1 == c.1) with
        | some (x : String × FSNode) => resolve x.2 q
        | none => none) leafValue) = some v
      rw [hf]
      exact hres

theorem dget_digestNode_present (q : FPath) :
    ∀ (n : FSNode) (s v : String), (resolve n q).bind leafValue = some v →
      dget (digestNode s n) (extendPath s q) ≠ none := by
  induction q with
  | nil =>
    intro n s v h
    cases n with
    | symlink t =>
      intro hc
      rw [show extendPath s [] = s from rfl] at hc
      have hd : dget (digestNode s (.symlink t)) s = some ("symlink=" ++ t) := by
        have heq : digestNode s (.symlink t) = [(s, "symlink=" ++ t)] := rfl
        rw [heq, dget_cons, if_pos rfl]
      rw [hd] at hc
      cases hc
    | file c =>
      intro hc
      rw [show extendPath s [] = s from rfl] at hc
      have hd : dget (digestNode s (.file c)) s = some ("sha256=" ++ sha256hex c) := by
        have heq : digestNode s (.file c) = [(s, "sha256=" ++ sha256hex c)] := rfl
        rw [heq, dget_cons, if_pos rfl]
      rw [hd] at hc
      cases hc
    | dir children => exact fun _ => Option.noConfusion h
  | cons c rest ih =>
    intro n s v h
    cases n with
    | symlink t => exact absurd h (fun hc => Option.noConfusion hc)
    | file co => exact absurd h (fun hc => Option.noConfusion hc)
    | dir children =>
      revert h
      show (Option.bind (match children.find? (fun x => x.1 == c) with
        | some (x : String × FSNode) => resolve x.2 rest
        | none => none) leafValue) = some v → _
      cases hf : children.find? (fun x => x.1 == c) with
      | none =>
        intro hcontra
        exact Option.noConfusion hcontra
      | some x =>
        intro h
        have hx : x ∈ children := List.mem_of_find?_eq_some hf
        have hx1 : x.1 = c := by
          have hb := List.find?_some hf
          exact eq_of_beq hb
        have hih := ih x.2 (pjoin s c) v h
        rw [extendPath_cons, dget_digestNode_dir]
        have hcontrib : digestNode (pjoin s x.1) x.2 ∈ contribs s children :=
          mem_contribs_of_mem hx
        rw [hx1] at hcontrib
        have hmem : digestNode (pjoin s c) x.2 ∈ (contribs s children).reverse :=
          List.mem_reverse.mpr hcontrib
        rcases Option.ne_none_iff_exists'.mp hih with ⟨w, hw⟩
        exact findSome?_ne_none hmem hw

theorem dget_digest_files {root : FSNode} {files : List FPath} {m : DigestMap}
    (h : digest_files root files = .ok m) (k : String) :
    dget m k = contribGet root files k := by
  have hgo := dget_digest_files_go (show NodupKeys ([] : DigestMap) from List.nodup_nil) h k
  rw [show dget ([] : DigestMap) k = none from rfl, Option.or_none] at hgo
  exact hgo

theorem contribGet_eq {root : FSNode} (hg : root.good = true) {ps : List FPath}
    (hps : ∀ p ∈ ps, canonicalPath p = true) {p : FPath} (hp : p ∈ ps)
    {n : FSNode} (hres : resolve root p = some n) {k v : String}
    (hv : dget (digestNode (pathStr p) n) k = some v) :
    contribGet root ps k = some v := by
  have hfp : (fun q => match resolve root q with
      | some nn => dget (digestNode (pathStr q) nn) k
      | none => none) p = some v := by
    show (match resolve root p with
      | some nn => dget (digestNode (pathStr p) nn) k
      | none => none) = some v
    rw [hres]
    exact hv
  have hmem : p ∈ ps.reverse := List.mem_reverse.mpr hp
  unfold contribGet
  cases hfind : ps.reverse.findSome? (fun q => match resolve root q with
      | some nn => dget (digestNode (pathStr q) nn) k
      | none => none) with
  | none => exact absurd hfind (findSome?_ne_none hmem hfp)
  | some w =>
    rcases findSome?_exists hfind with ⟨p2, hp2, hw⟩
    rw [List.mem_reverse] at hp2
    revert hw
    show (match resolve root p2 with
      | some nn => dget (digestNode (pathStr p2) nn) k
      | none => none) = some w → some w = some v
    cases hres2 : resolve root p2 with
    | none =>
      intro hw
      exact Option.noConfusion hw
    | some n2 =>
      intro hw
      have hg2 : n2.good = true := good_resolve hg hres2
      have hgn : n.good = true := good_resolve hg hres
      rcases dget_digestNode_char n2 hg2 (pathStr p2) k w hw with ⟨q2, hq2, hk2, hlv2⟩
      rcases dget_digestNode_char n hgn (pathStr p) k v hv with ⟨q1, hq1, hk1, hlv1⟩
      have he2 : k = pathStr (p2 ++ q2) := by
        rw [hk2, pathStr_append]
      have he1 : k = pathStr (p ++ q1) := by
        rw [hk1, pathStr_append]
      have hcanon2 : canonicalPath (p2 ++ q2) = true := by
        unfold canonicalPath
        rw [List.all_append, Bool.and_eq_true]
        exact ⟨hps p2 hp2, hq2⟩
      have hcanon1 : canonicalPath (p ++ q1) = true := by
        unfold canonicalPath
        rw [List.all_append, Bool.and_eq_true]
        exact ⟨hps p hp, hq1⟩
      have heq : p2 ++ q2 = p ++ q1 := pathStr_inj hcanon2 hcanon1 (he2.symm.trans he1)
      have hr2 : resolve root (p2 ++ q2) = resolve n2 q2 := by
        rw [resolve_append, hres2]
        rfl
      have hr1 : resolve root (p ++ q1) = resolve n q1 := by
        rw [resolve_append, hres]
        rfl
      have hsame : resolve n2 q2 = resolve n q1 := by
        rw [← hr2, ← hr1, heq]
      rw [hsame, hlv1] at hlv2
      exact hlv2.symm

/-! ## Claim C6: symlinks are recorded by target, never dereferenced -/

/-- C6: for a path that is a symbolic link with target `t`, `digest_files`
returns exactly the single-entry map from the path to `"symlink=" ++ t`.
The statement quantifies over every filesystem tree in which the path is
such a link: the result is the same whether or not the target exists in
the tree, and depends on nothing but the link target — the target content
is never read. -/
theorem digest_files_symlink (root : FSNode) (s : FPath) (t : String)
    (h : resolve root s = some (.symlink t)) :
    digest_files root [s] = .ok [(pathStr s, "symlink=" ++ t)] := by
  show (match resolve root s with
    | some node => digest_files_go root (pymerge [] (digestNode (pathStr s) node)) []
    | none => (.error .ioError : Except PyError DigestMap)) = _
  rw [h]
  rfl

/-- C6 witness: a filesystem with one dangling symlink `ln -> gone`. -/
theorem digest_files_symlink_witness :
    resolve (.dir [("ln", .symlink "gone")]) ["ln"] = some (.symlink "gone") ∧
    digest_files (.dir [("ln", .symlink "gone")]) [["ln"]] =
      .ok [("ln", "symlink=gone")] :=
  ⟨rfl, digest_files_symlink (.dir [("ln", .symlink "gone")]) ["ln"] "gone" rfl⟩

/-! ## Claim C8: unsupported archive extensions fail before any I/O -/

/-- C8: for a path whose extension is none of .zip, .jar, .war,
`digest_archive` fails with the UnsupportedFormat error for every archive
environment — in particular for the environment in which every path is
unreadable, which shows the failure happens before any I/O is attempted. -/
theorem digest_archive_unsupported (archive : String)
    (h : (pyEndsWith archive ".zip" || pyEndsWith archive ".jar" ||
      pyEndsWith archive ".war") = false) :
    ∀ zfs : ZipFS, digest_archive zfs archive = .error .unsupportedFormat := by
  intro zfs
  unfold digest_archive
  rw [h]
  rfl

/-- C8 witness: a tarball name, in the fully unreadable environment. -/
theorem digest_archive_unsupported_witness :
    (pyEndsWith "out.tar.gz" ".zip" || pyEndsWith "out.tar.gz" ".jar" ||
      pyEndsWith "out.tar.gz" ".war") = false ∧
    digest_archive (fun _ => none) "out.tar.gz" = .error .unsupportedFormat :=
  ⟨by decide, digest_archive_unsupported "out.tar.gz" (by decide) (fun _ => none)⟩

/-! ## Claim C2: scheme-tagged values -/

/-- Scheme-tag check: does the value start with the given tag? -/
def startsWithTag (v tag : String) : Bool := tag.data.isPrefixOf v.data

theorem isPrefixOf_append_self (u r : List Char) : u.isPrefixOf (u ++ r) = true := by
  induction u with
  | nil => simp [List.isPrefixOf]
  | cons a u ih => simp [List.isPrefixOf, ih]

theorem startsWithTag_append (tag rest : String) :
    startsWithTag (tag ++ rest) tag = true := by
  unfold startsWithTag
  rw [String.data_append]
  exact isPrefixOf_append_self tag.data rest.data

theorem mem_foldl_pymerge {ms : List DigestMap} {acc : DigestMap}
    {x : String × String} (h : x ∈ ms.foldl pymerge acc) :
    x ∈ acc ∨ ∃ m ∈ ms, x ∈ m := by
  induction ms generalizing acc with
  | nil => exact Or.inl h
  | cons m rest ih =>
    rcases ih h with h1 | h1
    · rcases mem_pymerge h1 with h2 | h2
      · exact Or.inl h2
      · exact Or.inr ⟨m, List.mem_cons_self m rest, h2⟩
    · rcases h1 with ⟨m', hm', hx⟩
      exact Or.inr ⟨m', List.mem_cons_of_mem _ hm', hx⟩

theorem digestNode_values_tagged (n : FSNode) :
    ∀ (s : String) (kv : String × String), kv ∈ digestNode s n →
      (startsWithTag kv.2 "sha256=" || startsWithTag kv.2 "symlink=") = true := by
  induction n using FSNode.rec_size with
  | hsym t =>
    intro s kv hkv
    have heq : digestNode s (.symlink t) = [(s, "symlink=" ++ t)] := rfl
    rw [heq, List.mem_singleton] at hkv
    subst hkv
    rw [Bool.or_eq_true]
    exact Or.inr (startsWithTag_append "symlink=" t)
  | hfile c =>
    intro s kv hkv
    have heq : digestNode s (.file c) = [(s, "sha256=" ++ sha256hex c)] := rfl
    rw [heq, List.mem_singleton] at hkv
    subst hkv
    rw [Bool.or_eq_true]
    exact Or.inl (startsWithTag_append "sha256=" (sha256hex c))
  | hdir children ih =>
    intro s kv hkv
    have heq : digestNode s (.dir children) = (contribs s children).foldl pymerge [] := rfl
    rw [heq] at hkv
    rcases mem_foldl_pymerge hkv with h1 | h1
    · cases h1
    · rcases h1 with ⟨m, hm, hx⟩
      rcases mem_contribs hm with ⟨c, hc, hmeq⟩
      subst hmeq
      exact ih c hc (pjoin s c.1) kv hx

theorem mem_digest_files_go {root : FSNode} {acc : DigestMap} {ps : List FPath}
    {m : DigestMap} (h : digest_files_go root acc ps = .ok m)
    {x : String × String} (hx : x ∈ m) :
    x ∈ acc ∨ ∃ p ∈ ps, ∃ (n : FSNode),
      resolve root p = some n ∧ x ∈ digestNode (pathStr p) n := by
  induction ps generalizing acc with
  | nil =>
    cases h
    exact Or.inl hx
  | cons p rest ih =>
    unfold digest_files_go at h
    cases hres : resolve root p with
    | none =>
      rw [hres] at h
      cases h
    | some n =>
      rw [hres] at h
      rcases ih h with h1 | h1
      · rcases mem_pymerge h1 with h2 | h2
        · exact Or.inl h2
        · exact Or.inr ⟨p, List.mem_cons_self p rest, n, hres, h2⟩
      · rcases h1 with ⟨p2, hp2, n2, hres2, hmem2⟩
        exact Or.inr ⟨p2, List.mem_cons_of_mem p hp2, n2, hres2, hmem2⟩

/-- C2 (amended): every value in a DigestMap produced by `digest_files` is
scheme-tagged, beginning with "sha256=" (regular files) or "symlink="
(symbolic links).  The maps produced by `digest_archive`, however, carry
bare hex digests with no scheme tag — see the counterexample — so the
original claim fails for the archive digester. -/
theorem digest_files_values_tagged (root : FSNode) (files : List FPath)
    (m : DigestMap) (h : digest_files root files = .ok m) :
    ∀ kv ∈ m, (startsWithTag kv.2 "sha256=" || startsWithTag kv.2 "symlink=") = true := by
  intro kv hkv
  rcases mem_digest_files_go h hkv with h1 | h1
  · cases h1
  · rcases h1 with ⟨p, _, n, _, hmem⟩
    exact digestNode_values_tagged n (pathStr p) kv hmem

/-- C2 witness: a filesystem with one regular file and one symlink. -/
theorem digest_files_values_tagged_witness :
    digest_files (.dir [("f", .file [1]), ("ln", .symlink "f")]) [["f"], ["ln"]] =
      .ok [("f", "sha256=" ++ sha256hex [1]), ("ln", "symlink=f")] ∧
    ∀ kv ∈ [("f", "sha256=" ++ sha256hex [1]), ("ln", "symlink=f")],
      (startsWithTag kv.2 "sha256=" || startsWithTag kv.2 "symlink=") = true :=
  ⟨rfl, digest_files_values_tagged (.dir [("f", .file [1]), ("ln", .symlink "f")])
    [["f"], ["ln"]] _ rfl⟩

/-- C2 counterexample: digesting a readable one-entry zip archive yields,
for the per-entry content key "a.zip#x", a bare hex digest value that
starts with neither "sha256=" nor "symlink=" — refuting the claim that
every value produced by digest_archive is scheme-tagged. -/
theorem digest_archive_value_untagged :
    digest_archive
        (fun s => if s = "a.zip" then
          some [⟨"x", [1980, 1, 1, 0, 0, 0], [49]⟩] else none) "a.zip" =
      .ok (_digest_zip_archive "a.zip" [⟨"x", [1980, 1, 1, 0, 0, 0], [49]⟩]) ∧
    dget (_digest_zip_archive "a.zip" [⟨"x", [1980, 1, 1, 0, 0, 0], [49]⟩])
        "a.zip#x" = some (sha256hex [49]) ∧
    (startsWithTag (sha256hex [49]) "sha256=" ||
      startsWithTag (sha256hex [49]) "symlink=") = false :=
  ⟨rfl, by decide, by decide⟩

/-! ## Claim C5: archive key count -/

/-- The per-entry keys of an archive digest, in insertion order. -/
def zipEntryKeys (archive : String) (entries : List ZipEntry) : List String :=
  entries.flatMap (fun e => [archive ++ "#" ++ e.filename ++ "#date_time",
    archive ++ "#" ++ e.filename])

theorem string_append_cancel_left {a b c : String} (h : a ++ b = a ++ c) : b = c := by
  apply String.ext
  have hd : a.data ++ b.data = a.data ++ c.data := by
    rw [← String.data_append, ← String.data_append, h]
  exact List.append_cancel_left hd

theorem nmK_data (archive : String) :
    (archive ++ "#namelist").data = archive.data ++ '#' :: "namelist".data := by
  rw [String.data_append]

theorem ctK_data (archive f : String) :
    (archive ++ "#" ++ f).data = archive.data ++ '#' :: f.data := by
  rw [String.data_append, String.data_append, List.append_assoc]
  rfl

theorem dtK_data (archive f : String) :
    (archive ++ "#" ++ f ++ "#date_time").data =
      archive.data ++ '#' :: (f.data ++ "#date_time".data) := by
  rw [String.data_append, ctK_data, List.append_assoc]
  rfl

theorem key_suffix_inj {archive : String} {x y : List Char}
    (h : archive.data ++ '#' :: x = archive.data ++ '#' :: y) : x = y :=
  List.tail_eq_of_cons_eq (List.append_cancel_left h)

theorem dt_suffix_ne_name (f g : List Char) (hlen : g.length < 10) :
    f ++ "#date_time".data ≠ g := by
  intro h
  have := congrArg List.length h
  rw [List.length_append] at this
  have hdt : ("#date_time".data).length = 10 := by decide
  omega

theorem mem_zipEntryKeys {archive : String} {entries : List ZipEntry} {k : String}
    (h : k ∈ zipEntryKeys archive entries) :
    ∃ e ∈ entries, k = archive ++ "#" ++ e.filename ++ "#date_time" ∨
      k = archive ++ "#" ++ e.filename := by
  unfold zipEntryKeys at h
  rcases List.mem_flatMap.mp h with ⟨e, he, hk⟩
  rcases List.mem_cons.mp hk with h1 | h1
  · exact ⟨e, he, Or.inl h1⟩
  · exact ⟨e, he, Or.inr (List.mem_singleton.mp h1)⟩

theorem zipEntryKeys_nodup (archive : String) (sub : List ZipEntry)
    (hnd : (sub.map (fun e => e.filename)).Nodup)
    (hdt : ∀ e1 ∈ sub, ∀ e2 ∈ sub, e1.filename ≠ e2.filename ++ "#date_time") :
    (zipEntryKeys archive sub).Nodup := by
  induction sub with
  | nil => exact List.nodup_nil
  | cons e rest ih =>
    have heq : zipEntryKeys archive (e :: rest) =
        (archive ++ "#" ++ e.filename ++ "#date_time") ::
        (archive ++ "#" ++ e.filename) :: zipEntryKeys archive rest := rfl
    rw [heq]
    have hfn : e.filename ∉ rest.map (fun e2 => e2.filename) :=
      (List.nodup_cons.mp hnd).1
    have hndrest : (rest.map (fun e2 => e2.filename)).Nodup :=
      (List.nodup_cons.mp hnd).2
    have hdtrest : ∀ e1 ∈ rest, ∀ e2 ∈ rest,
        e1.filename ≠ e2.filename ++ "#date_time" :=
      fun e1 h1 e2 h2 =>
        hdt e1 (List.mem_cons_of_mem e h1) e2 (List.mem_cons_of_mem e h2)
    have hfn_ne : ∀ e2 ∈ rest, e.filename ≠ e2.filename := by
      intro e2 h2 hc
      exact hfn (hc ▸ List.mem_map.mpr ⟨e2, h2, rfl⟩)
    refine List.nodup_cons.mpr ⟨?_, List.nodup_cons.mpr ⟨?_, ih hndrest hdtrest⟩⟩
    · intro hmem
      rcases List.mem_cons.mp hmem with h1 | h1
      · -- dt key equals content key of the same entry
        have hs := key_suffix_inj ((dtK_data archive e.filename).symm.trans
          ((congrArg String.data h1).trans (ctK_data archive e.filename)))
        exact dt_suffix_ne_name e.filename.data e.filename.data
          (by
            have := congrArg List.length hs
            rw [List.length_append] at this
            have hdt10 : ("#date_time".data).length = 10 := by decide
            omega) hs
      · rcases mem_zipEntryKeys h1 with ⟨e2, he2, hk | hk⟩
        · -- dt e = dt e2 → same filename, contradicting nodup
          have hs := key_suffix_inj ((dtK_data archive e.filename).symm.trans
            ((congrArg String.data hk).trans (dtK_data archive e2.filename)))
          have hff : e.filename = e2.filename :=
            String.ext (List.append_cancel_right hs)
          exact hfn_ne e2 he2 hff
        · -- dt e = ct e2 → e2.filename = e.filename ++ "#date_time"
          have hs := key_suffix_inj ((dtK_data archive e.filename).symm.trans
            ((congrArg String.data hk).trans (ctK_data archive e2.filename)))
          have : e2.filename = e.filename ++ "#date_time" := by
            apply String.ext
            rw [String.data_append]
            exact hs.symm
          exact hdt e2 (List.mem_cons_of_mem e he2) e (List.mem_cons_self e rest) this
    · intro hmem
      rcases mem_zipEntryKeys hmem with ⟨e2, he2, hk | hk⟩
      · -- ct e = dt e2 → e.filename = e2.filename ++ "#date_time"
        have hs := key_suffix_inj ((ctK_data archive e.filename).symm.trans
          ((congrArg String.data hk).trans (dtK_data archive e2.filename)))
        have : e.filename = e2.filename ++ "#date_time" := by
          apply String.ext
          rw [String.data_append]
          exact hs
        exact hdt e (List.mem_cons_self e rest) e2 (List.mem_cons_of_mem e he2) this
      · -- ct e = ct e2 → same filename
        have hs := key_suffix_inj ((ctK_data archive e.filename).symm.trans
          ((congrArg String.data hk).trans (ctK_data archive e2.filename)))
        exact hfn_ne e2 he2 (String.ext hs)

theorem zip_keys_nodup (archive : String) (entries : List ZipEntry)
    (hnames : (entries.map (fun e => e.filename)).Nodup)
    (hnm : ∀ e ∈ entries, e.filename ≠ "namelist")
    (hdt : ∀ e1 ∈ entries, ∀ e2 ∈ entries,
      e1.filename ≠ e2.filename ++ "#date_time") :
    ((archive ++ "#namelist") :: zipEntryKeys archive entries).Nodup := by
  refine List.nodup_cons.mpr ⟨?_, zipEntryKeys_nodup archive entries hnames hdt⟩
  intro hmem
  rcases mem_zipEntryKeys hmem with ⟨e, he, hk | hk⟩
  · have hs := key_suffix_inj ((nmK_data archive).symm.trans
      ((congrArg String.data hk).trans (dtK_data archive e.filename)))
    exact dt_suffix_ne_name e.filename.data "namelist".data (by decide) hs.symm
  · have hs := key_suffix_inj ((nmK_data archive).symm.trans
      ((congrArg String.data hk).trans (ctK_data archive e.filename)))
    exact hnm e he (String.ext hs.symm)

theorem find?_entry_isSome {entries : List ZipEntry} {e : ZipEntry} (he : e ∈ entries) :
    ∃ x, entries.find? (fun e2 => e2.filename == e.filename) = some x := by
  cases hf : entries.find? (fun e2 => e2.filename == e.filename) with
  | some x => exact ⟨x, rfl⟩
  | none =>
    rw [List.find?_eq_none] at hf
    exact absurd (beq_self_eq_true e.filename) (by simpa using hf e he)

theorem dkeys_zip_fold (archive : String) (all : List ZipEntry) :
    ∀ (entries : List ZipEntry) (acc : DigestMap),
      (∀ e ∈ entries, ∃ x, all.find? (fun e2 => e2.filename == e.filename) = some x) →
      (dkeys acc ++ zipEntryKeys archive entries).Nodup →
      dkeys (entries.foldl (fun acc2 info =>
        let acc1 := dinsert acc2 (archive ++ "#" ++ info.filename ++ "#date_time")
          (_digest_json_date_time info.date_time)
        match all.find? (fun e => e.filename == info.filename) with
        | some e => dinsert acc1 (archive ++ "#" ++ info.filename) (sha256hex e.content)
        | none => acc1) acc) =
      dkeys acc ++ zipEntryKeys archive entries := by
  intro entries
  induction entries with
  | nil =>
    intro acc _ _
    have heq : zipEntryKeys archive [] = [] := rfl
    rw [heq, List.append_nil]
    rfl
  | cons e rest ih =>
    intro acc hfind hnd
    obtain ⟨x, hx⟩ := hfind e (List.mem_cons_self e rest)
    have hkeys : zipEntryKeys archive (e :: rest) =
        (archive ++ "#" ++ e.filename ++ "#date_time") ::
        (archive ++ "#" ++ e.filename) :: zipEntryKeys archive rest := rfl
    rw [hkeys] at hnd ⊢
    simp only [List.foldl_cons]
    rw [hx]
    rw [List.nodup_append] at hnd
    obtain ⟨hndacc, hndkeys, hdisj⟩ := hnd
    have hdtnm : (archive ++ "#" ++ e.filename ++ "#date_time") ∉ dkeys acc := by
      intro hc
      exact hdisj hc (List.mem_cons_self _ _)
    have hctnm : (archive ++ "#" ++ e.filename) ∉ dkeys acc := by
      intro hc
      exact hdisj hc (List.mem_cons_of_mem _ (List.mem_cons_self _ _))
    have hdtct : (archive ++ "#" ++ e.filename ++ "#date_time") ≠
        (archive ++ "#" ++ e.filename) := by
      intro hc
      have hs := key_suffix_inj ((dtK_data archive e.filename).symm.trans
        ((congrArg String.data hc).trans (ctK_data archive e.filename)))
      have := congrArg List.length hs
      rw [List.length_append] at this
      have hdt10 : ("#date_time".data).length = 10 := by decide
      omega
    have hacc1 : dkeys (dinsert acc (archive ++ "#" ++ e.filename ++ "#date_time")
        (_digest_json_date_time e.date_time)) =
        dkeys acc ++ [archive ++ "#" ++ e.filename ++ "#date_time"] := by
      rw [dkeys_dinsert, if_neg hdtnm]
    have hacc2 : dkeys (dinsert (dinsert acc
        (archive ++ "#" ++ e.filename ++ "#date_time")
        (_digest_json_date_time e.date_time))
        (archive ++ "#" ++ e.filename) (sha256hex x.content)) =
        (dkeys acc ++ [archive ++ "#" ++ e.filename ++ "#date_time"]) ++
          [archive ++ "#" ++ e.filename] := by
      rw [dkeys_dinsert, hacc1, if_neg]
      intro hc
      rcases List.mem_append.mp hc with hc1 | hc1
      · exact hctnm hc1
      · exact hdtct (List.mem_singleton.mp hc1).symm
    have hfind2 : ∀ e2 ∈ rest, ∃ x2,
        all.find? (fun e3 => e3.filename == e2.filename) = some x2 :=
      fun e2 h2 => hfind e2 (List.mem_cons_of_mem e h2)
    have hnd2 : (dkeys (dinsert (dinsert acc
        (archive ++ "#" ++ e.filename ++ "#date_time")
        (_digest_json_date_time e.date_time))
        (archive ++ "#" ++ e.filename) (sha256hex x.content)) ++
          zipEntryKeys archive rest).Nodup := by
      rw [hacc2]
      rw [List.nodup_append]
      refine ⟨?_, ?_, ?_⟩
      · rw [List.nodup_append]
        refine ⟨List.nodup_append.mpr ⟨hndacc, List.nodup_singleton _, ?_⟩,
          List.nodup_singleton _, ?_⟩
        · intro a ha hb
          exact hdisj ha (List.mem_singleton.mp hb ▸ List.mem_cons_self _ _)
        · intro a ha hb
          rcases List.mem_append.mp ha with h1 | h1
          · exact hdisj h1
              (List.mem_singleton.mp hb ▸
                List.mem_cons_of_mem _ (List.mem_cons_self _ _))
          · exact hdtct ((List.mem_singleton.mp h1).symm.trans
              (List.mem_singleton.mp hb))
      · exact (List.nodup_cons.mp (List.nodup_cons.mp hndkeys).2).2
      · intro a ha hb
        rcases List.mem_append.mp ha with h1 | h1
        · rcases List.mem_append.mp h1 with h2 | h2
          · exact hdisj h2 (List.mem_cons_of_mem _ (List.mem_cons_of_mem _ hb))
          · rw [List.mem_singleton.mp h2] at hb
            exact (List.nodup_cons.mp hndkeys).1 (List.mem_cons_of_mem _ hb)
        · rw [List.mem_singleton.mp h1] at hb
          exact (List.nodup_cons.mp (List.nodup_cons.mp hndkeys).2).1 hb
    have hmain := ih _ hfind2 hnd2
    rw [hmain, hacc2]
    simp [List.append_assoc]

theorem zipEntryKeys_length (archive : String) (entries : List ZipEntry) :
    (zipEntryKeys archive entries).length = 2 * entries.length := by
  induction entries with
  | nil => rfl
  | cons e rest ih =>
    have heq : zipEntryKeys archive (e :: rest) =
        (archive ++ "#" ++ e.filename ++ "#date_time") ::
        (archive ++ "#" ++ e.filename) :: zipEntryKeys archive rest := rfl
    rw [heq, List.length_cons, List.length_cons, ih, List.length_cons]
    omega

theorem dkeys_digest_zip_archive (archive : String) (entries : List ZipEntry)
    (hnd : ((archive ++ "#namelist") :: zipEntryKeys archive entries).Nodup) :
    dkeys (_digest_zip_archive archive entries) =
      (archive ++ "#namelist") :: zipEntryKeys archive entries := by
  unfold _digest_zip_archive
  have hinitkeys : dkeys (dinsert [] (archive ++ "#namelist")
      (_digest_json_namelist (entries.map (fun e => e.filename)))) =
      [archive ++ "#namelist"] := by
    rw [dkeys_dinsert]
    rw [if_neg (by intro hc; cases hc)]
    rfl
  have hfold := dkeys_zip_fold archive entries entries
    (dinsert [] (archive ++ "#namelist")
      (_digest_json_namelist (entries.map (fun e => e.filename))))
    (fun e he => find?_entry_isSome he)
    (by rw [hinitkeys]; exact hnd)
  rw [hfold, hinitkeys]
  rfl

/-- C5 (amended): for a readable archive whose entry names are pairwise
distinct, with no entry named "namelist" and no entry name equal to
another entry name followed by "#date_time", `digest_archive` returns a
map with exactly `1 + 2 n` keys: the namelist key plus, per entry, one
metadata key and one content key.  When entry names collide — which the
zip format permits — the composite keys coincide and the count is lower,
so the original unconditional claim fails (see the counterexample). -/
theorem digest_archive_key_count (zfs : ZipFS) (archive : String)
    (entries : List ZipEntry)
    (hsupp : (pyEndsWith archive ".zip" || pyEndsWith archive ".jar" ||
      pyEndsWith archive ".war") = true)
    (hzfs : zfs archive = some entries)
    (hnames : (entries.map (fun e => e.filename)).Nodup)
    (hnm : ∀ e ∈ entries, e.filename ≠ "namelist")
    (hdt : ∀ e1 ∈ entries, ∀ e2 ∈ entries,
      e1.filename ≠ e2.filename ++ "#date_time") :
    digest_archive zfs archive = .ok (_digest_zip_archive archive entries) ∧
    (dkeys (_digest_zip_archive archive entries)).length =
      1 + 2 * entries.length := by
  constructor
  · unfold digest_archive
    rw [hsupp, hzfs]
    rfl
  · rw [dkeys_digest_zip_archive archive entries
      (zip_keys_nodup archive entries hnames hnm hdt)]
    rw [List.length_cons, zipEntryKeys_length]
    omega

/-- C5 witness: a supported two-entry archive with distinct entry names. -/
theorem digest_archive_key_count_witness :
    (dkeys (_digest_zip_archive "z.zip"
      [⟨"a", [1980, 1, 1, 0, 0, 0], [1]⟩,
        ⟨"b", [1980, 1, 1, 0, 0, 0], [2]⟩])).length = 1 + 2 * 2 :=
  (digest_archive_key_count
    (fun s => if s = "z.zip" then
      some [⟨"a", [1980, 1, 1, 0, 0, 0], [1]⟩,
        ⟨"b", [1980, 1, 1, 0, 0, 0], [2]⟩] else none)
    "z.zip"
    [⟨"a", [1980, 1, 1, 0, 0, 0], [1]⟩, ⟨"b", [1980, 1, 1, 0, 0, 0], [2]⟩]
    (by decide) rfl (by decide) (by decide) (by decide)).2

/-- C5 counterexample: a readable zip with two entries that share the name
"x" — legal in the zip format — produces only 3 keys, not 1 + 2 x 2 = 5:
the duplicate composite keys coincide. -/
theorem digest_archive_key_count_cex :
    digest_archive (fun s => if s = "a.zip" then
        some [⟨"x", [1980, 1, 1, 0, 0, 0], [49]⟩,
          ⟨"x", [1980, 1, 1, 0, 0, 0], [50]⟩] else none) "a.zip" =
      .ok (_digest_zip_archive "a.zip"
        [⟨"x", [1980, 1, 1, 0, 0, 0], [49]⟩,
          ⟨"x", [1980, 1, 1, 0, 0, 0], [50]⟩]) ∧
    (dkeys (_digest_zip_archive "a.zip"
      [⟨"x", [1980, 1, 1, 0, 0, 0], [49]⟩,
        ⟨"x", [1980, 1, 1, 0, 0, 0], [50]⟩])).length ≠ 1 + 2 * 2 :=
  ⟨rfl, by decide⟩

/-! ## Claim C3: operation failure propagates -/

/-- C3: if the operation fails on its first invocation, the test fails at
once with OperationFailure; if the first invocation and its snapshot
succeed and the second invocation fails, the test likewise fails with
OperationFailure.  Conversely any successful result — in particular an
empty ("reproducible") one — requires both invocations to have succeeded,
so a failed run is never reported as reproducible by omission. -/
theorem test_reproducibility_op_failure (func : Nat → Option FSNode)
    (zfs : Nat → ZipFS) (output_files output_archives : List FPath) :
    (func 0 = none →
      test_reproducibility func zfs output_files output_archives =
        .error .operationFailure) ∧
    (∀ root1 d1, func 0 = some root1 →
      digest_outputs root1 (zfs 0) output_files output_archives = .ok d1 →
      func 1 = none →
      test_reproducibility func zfs output_files output_archives =
        .error .operationFailure) ∧
    (∀ l, test_reproducibility func zfs output_files output_archives = .ok l →
      func 0 ≠ none ∧ func 1 ≠ none) := by
  refine ⟨?_, ?_, ?_⟩
  · intro h
    unfold test_reproducibility
    rw [h]
  · intro root1 d1 h0 hd h1
    simp only [test_reproducibility, h0, hd, h1]
  · intro l h
    cases h0 : func 0 with
    | none =>
      unfold test_reproducibility at h
      rw [h0] at h
      exact absurd h (fun hc => Except.noConfusion hc)
    | some root1 =>
      have hstep : test_reproducibility func zfs output_files output_archives =
          (match digest_outputs root1 (zfs 0) output_files output_archives with
           | .error e => .error e
           | .ok d1 =>
             match func 1 with
             | none => .error .operationFailure
             | some root2 =>
               match digest_outputs root2 (zfs 1) output_files output_archives with
               | .error e => .error e
               | .ok d2 => .ok (compare_digests d1 d2)) := by
        unfold test_reproducibility
        rw [h0]
      rw [hstep] at h
      cases hd : digest_outputs root1 (zfs 0) output_files output_archives with
      | error e =>
        rw [hd] at h
        exact absurd h (fun hc => Except.noConfusion hc)
      | ok d1 =>
        rw [hd] at h
        cases h1 : func 1 with
        | none =>
          rw [h1] at h
          exact absurd h (fun hc => Except.noConfusion hc)
        | some root2 =>
          exact ⟨fun hc => Option.noConfusion hc, fun hc => Option.noConfusion hc⟩

/-- C3 witness: an operation that fails on every invocation. -/
theorem test_reproducibility_op_failure_witness :
    test_reproducibility (fun _ => none) (fun _ _ => none) [] [] =
      .error .operationFailure :=
  (test_reproducibility_op_failure (fun _ => none) (fun _ _ => none) [] []).1 rfl

/-! ## Claim C10: duplicate input paths are harmless -/

theorem dinsert_eq_self {m : DigestMap} {k v : String} (hnd : NodupKeys m)
    (h : dget m k = some v) : dinsert m k v = m := by
  unfold dinsert
  rw [if_pos ((dany_eq_mem m k).mpr (mem_dkeys.mpr ⟨v, dget_mem h⟩))]
  calc m.map (fun pr => if pr.1 == k then (k, v) else pr)
      = m.map id := List.map_congr_left (by
        intro pr hpr
        show (if pr.1 == k then (k, v) else pr) = pr
        obtain ⟨a, b⟩ := pr
        by_cases hk : a = k
        · subst hk
          simp only [beq_self_eq_true, if_true]
          have hsome := dget_of_mem hnd hpr
          rw [h] at hsome
          rw [Option.some.inj hsome]
        · simp [hk])
    _ = m := List.map_id m

theorem pymerge_eq_self {m1 m2 : DigestMap} (hnd : NodupKeys m1)
    (h : ∀ kv ∈ m2, dget m1 kv.1 = some kv.2) : pymerge m1 m2 = m1 := by
  induction m2 with
  | nil => exact pymerge_nil m1
  | cons p rest ih =>
    obtain ⟨k, v⟩ := p
    rw [pymerge_cons, dinsert_eq_self hnd (h (k, v) (List.mem_cons_self _ _))]
    exact ih (fun kv hkv => h kv (List.mem_cons_of_mem _ hkv))

/-- C10: appending a second occurrence of a path already in the input list
leaves the resulting digest map unchanged, on any well-formed filesystem
tree and for canonical input paths: the duplicate recomputes exactly the
same key-value pairs and overwrites them with identical values. -/
theorem digest_files_duplicate (root : FSNode) (ps : List FPath) (p : FPath)
    (hg : root.good = true)
    (hps : ∀ q ∈ ps, canonicalPath q = true)
    (hp : p ∈ ps) :
    digest_files root (ps ++ [p]) = digest_files root ps := by
  unfold digest_files
  rw [digest_files_go_append]
  cases hgo : digest_files_go root [] ps with
  | error e => rfl
  | ok m =>
    rcases resolve_of_go_ok hgo p hp with ⟨n, hres⟩
    show (match resolve root p with
      | some node =>
          digest_files_go root (pymerge m (digestNode (pathStr p) node)) []
      | none => (.error .ioError : Except PyError DigestMap)) = .ok m
    rw [hres]
    show Except.ok (pymerge m (digestNode (pathStr p) n)) = .ok m
    have hndm : NodupKeys m :=
      nodupKeys_digest_files_go (show NodupKeys ([] : DigestMap) from List.nodup_nil) hgo
    have hvals : ∀ kv ∈ digestNode (pathStr p) n, dget m kv.1 = some kv.2 := by
      intro kv hkv
      have hself : dget (digestNode (pathStr p) n) kv.1 = some kv.2 :=
        dget_of_mem (nodupKeys_digestNode _ _) hkv
      have hcg : contribGet root ps kv.1 = some kv.2 :=
        contribGet_eq hg hps hp hres hself
      rw [dget_digest_files hgo kv.1, hcg]
    rw [pymerge_eq_self hndm hvals]

/-- C10 witness: a two-file tree, with the first path listed twice. -/
theorem digest_files_duplicate_witness :
    FSNode.good (.dir [("f", .file [1]), ("g", .file [2])]) = true ∧
    digest_files (.dir [("f", .file [1]), ("g", .file [2])])
        ([["f"], ["g"]] ++ [["f"]]) =
      digest_files (.dir [("f", .file [1]), ("g", .file [2])]) [["f"], ["g"]] :=
  ⟨by decide, digest_files_duplicate (.dir [("f", .file [1]), ("g", .file [2])])
    [["f"], ["g"]] ["f"] (by decide) (by decide) (by decide)⟩

/-! ## Claim C7: directory flattening and enumeration-order independence -/

theorem pymerge_append {m : DigestMap} :
    ∀ {acc : DigestMap}, (dkeys acc ++ dkeys m).Nodup → pymerge acc m = acc ++ m := by
  induction m with
  | nil =>
    intro acc _
    rw [pymerge_nil, List.append_nil]
  | cons p rest ih =>
    intro acc hnd
    obtain ⟨k, v⟩ := p
    rw [pymerge_cons]
    have hdk : dkeys ((k, v) :: rest) = k :: dkeys rest := rfl
    rw [hdk] at hnd
    rw [List.nodup_append] at hnd
    have hkacc : k ∉ dkeys acc := by
      intro hc
      exact hnd.2.2 hc (List.mem_cons_self _ _)
    have hins : dinsert acc k v = acc ++ [(k, v)] := by
      unfold dinsert
      rw [if_neg (fun hc => hkacc ((dany_eq_mem acc k).mp hc))]
    rw [hins, ih ?_]
    · rw [List.append_assoc]
      rfl
    · show (dkeys (acc ++ [(k, v)]) ++ dkeys rest).Nodup
      have hda : dkeys (acc ++ [(k, v)]) = dkeys acc ++ [k] := by
        unfold dkeys
        rw [List.map_append]
        rfl
      rw [hda, List.append_assoc]
      rw [List.nodup_append]
      refine ⟨hnd.1, ?_, ?_⟩
      · show ([k] ++ dkeys rest).Nodup
        rw [List.nodup_append]
        refine ⟨List.nodup_singleton k, (List.nodup_cons.mp hnd.2.1).2, ?_⟩
        intro a ha hb
        rw [List.mem_singleton.mp ha] at hb
        exact (List.nodup_cons.mp hnd.2.1).1 hb
      · intro a ha hb
        rcases List.mem_append.mp hb with h1 | h1
        · rw [List.mem_singleton.mp h1] at ha
          exact hnd.2.2 ha (List.mem_cons_self _ _)
        · exact hnd.2.2 ha (List.mem_cons_of_mem _ h1)

theorem digest_files_single_dir (root : FSNode) (d : FPath)
    (children : List (String × FSNode))
    (hres : resolve root d = some (.dir children)) :
    digest_files root [d] = .ok (digestNode (pathStr d) (.dir children)) := by
  show (match resolve root d with
    | some node => digest_files_go root (pymerge [] (digestNode (pathStr d) node)) []
    | none => (.error .ioError : Except PyError DigestMap)) = _
  rw [hres]
  show Except.ok (pymerge [] (digestNode (pathStr d) (.dir children))) = _
  rw [pymerge_append (by
    show (dkeys ([] : DigestMap) ++
      dkeys (digestNode (pathStr d) (.dir children))).Nodup
    rw [show dkeys ([] : DigestMap) = [] from rfl, List.nil_append]
    exact nodupKeys_digestNode _ _)]
  rfl

theorem digest_files_go_children (root : FSNode) (d : FPath)
    (children0 : List (String × FSNode))
    (hres : resolve root d = some (.dir children0))
    (hnd : (children0.map (fun c => c.1)).Nodup) :
    ∀ (children : List (String × FSNode)) (acc : DigestMap),
      (∀ c ∈ children, c ∈ children0) →
      digest_files_go root acc (children.map (fun c => d ++ [c.1])) =
        .ok ((contribs (pathStr d) children).foldl pymerge acc) := by
  intro children
  induction children with
  | nil =>
    intro acc _
    rfl
  | cons c rest ih =>
    intro acc hsub
    have hc0 : c ∈ children0 := hsub c (List.mem_cons_self c rest)
    have hresc : resolve root (d ++ [c.1]) = some c.2 := by
      rw [resolve_append, hres]
      show (match children0.find? (fun x => x.1 == c.1) with
        | some (x : String × FSNode) => resolve x.2 []
        | none => none) = some c.2
      rw [find?_name_of_nodup hnd hc0]
      show resolve c.2 [] = some c.2
      cases c.2 <;> rfl
    show (match resolve root (d ++ [c.1]) with
      | some node =>
          digest_files_go root (pymerge acc (digestNode (pathStr (d ++ [c.1])) node))
            (rest.map (fun c2 : String × FSNode => d ++ [c2.1]))
      | none => (.error .ioError : Except PyError DigestMap)) = _
    rw [hresc]
    have hps : pathStr (d ++ [c.1]) = pjoin (pathStr d) c.1 := pathStr_append d [c.1]
    rw [hps]
    exact ih _ (fun c2 h2 => hsub c2 (List.mem_cons_of_mem c h2))

theorem goodChildren_intro {children : List (String × FSNode)}
    (h : ∀ c ∈ children, canonicalName c.1 = true ∧ c.2.good = true) :
    goodChildren children = true := by
  induction children with
  | nil => rfl
  | cons c rest ih =>
    have heq : goodChildren (c :: rest) =
        (canonicalName c.1 && c.2.good && goodChildren rest) := rfl
    rw [heq]
    have hc := h c (List.mem_cons_self c rest)
    rw [hc.1, hc.2, ih (fun c2 h2 => h c2 (List.mem_cons_of_mem c h2))]
    rfl

theorem good_dir_intro {children : List (String × FSNode)}
    (hnd : (children.map (fun c => c.1)).Nodup)
    (h : ∀ c ∈ children, canonicalName c.1 = true ∧ c.2.good = true) :
    FSNode.good (.dir children) = true := by
  have heq : FSNode.good (.dir children) =
      (decide ((children.map (fun c => c.1)).Nodup) && goodChildren children) := rfl
  rw [heq, decide_eq_true hnd, goodChildren_intro h]
  rfl

theorem resolve_bind_leaf_perm {ch1 ch2 : List (String × FSNode)}
    (hperm : ch1.Perm ch2) (hnd : (ch1.map (fun c => c.1)).Nodup) (q : FPath) :
    (resolve (.dir ch2) q).bind leafValue = (resolve (.dir ch1) q).bind leafValue := by
  cases q with
  | nil => rfl
  | cons c rest =>
    show (Option.bind (match ch2.find? (fun x => x.1 == c) with
      | some (x : String × FSNode) => resolve x.2 rest
      | none => none) leafValue) =
      (Option.bind (match ch1.find? (fun x => x.1 == c) with
        | some (x : String × FSNode) => resolve x.2 rest
        | none => none) leafValue)
    cases hf2 : ch2.find? (fun x => x.1 == c) with
    | some x =>
      have hx2 : x ∈ ch2 := List.mem_of_find?_eq_some hf2
      have hx1 : x ∈ ch1 := hperm.mem_iff.mpr hx2
      have hxc : x.1 = c := by
        have hb := List.find?_some hf2
        exact eq_of_beq hb
      have hf1 : ch1.find? (fun y => y.1 == x.1) = some x := find?_name_of_nodup hnd hx1
      rw [hxc] at hf1
      rw [hf1]
    | none =>
      have hnone : ch1.find? (fun x => x.1 == c) = none := by
        rw [List.find?_eq_none] at hf2 ⊢
        intro x hx
        exact hf2 x (hperm.mem_iff.mp hx)
      rw [hnone]

theorem dget_dir_perm_some {d : FPath} {ch1 ch2 : List (String × FSNode)}
    {k v : String}
    (hd : canonicalPath d = true)
    (hg1 : FSNode.good (.dir ch1) = true)
    (hperm : ch1.Perm ch2)
    (hv : dget (digestNode (pathStr d) (.dir ch1)) k = some v) :
    dget (digestNode (pathStr d) (.dir ch2)) k = some v := by
  obtain ⟨hnd1, hspec1⟩ := good_dir_spec hg1
  have hg2 : FSNode.good (.dir ch2) = true := by
    refine good_dir_intro ((hperm.map (fun c => c.1)).nodup hnd1) ?_
    intro c hc
    exact hspec1 c (hperm.mem_iff.mpr hc)
  rcases dget_digestNode_char (.dir ch1) hg1 (pathStr d) k v hv with ⟨q, hq, hk, hlv⟩
  have hlv2 : (resolve (.dir ch2) q).bind leafValue = some v := by
    rw [resolve_bind_leaf_perm hperm hnd1 q]
    exact hlv
  have hpres := dget_digestNode_present q (.dir ch2) (pathStr d) v hlv2
  rw [← hk] at hpres
  rcases Option.ne_none_iff_exists'.mp hpres with ⟨w, hw⟩
  rcases dget_digestNode_char (.dir ch2) hg2 (pathStr d) k w hw with ⟨q2, hq2, hk2, hlv2w⟩
  have hpq : pathStr (d ++ q) = pathStr (d ++ q2) := by
    rw [pathStr_append, pathStr_append, ← hk, ← hk2]
  have hcanq : canonicalPath (d ++ q) = true := by
    unfold canonicalPath
    rw [List.all_append, Bool.and_eq_true]
    exact ⟨hd, hq⟩
  have hcanq2 : canonicalPath (d ++ q2) = true := by
    unfold canonicalPath
    rw [List.all_append, Bool.and_eq_true]
    exact ⟨hd, hq2⟩
  have heqq : q = q2 := List.append_cancel_left (pathStr_inj hcanq hcanq2 hpq)
  rw [← heqq] at hlv2w
  rw [hlv2] at hlv2w
  rw [hw, Option.some.inj hlv2w]

/-- C7: digesting a directory equals digesting the list of its immediate
children (fully qualified component paths), and the directory digest is
unchanged, as a Python dict (key-for-key lookup equality), under any
permutation of the children enumeration returned by `os.listdir`. -/
theorem digest_files_dir (root : FSNode) (d : FPath)
    (children : List (String × FSNode))
    (hg : root.good = true)
    (hd : canonicalPath d = true)
    (hres : resolve root d = some (.dir children)) :
    digest_files root [d] =
      digest_files root (children.map (fun c => d ++ [c.1])) ∧
    ∀ children', children.Perm children' →
      ∀ k, dget (digestNode (pathStr d) (.dir children')) k =
        dget (digestNode (pathStr d) (.dir children)) k := by
  have hgdir : FSNode.good (.dir children) = true := good_resolve hg hres
  obtain ⟨hnd, hspec⟩ := good_dir_spec hgdir
  constructor
  · rw [digest_files_single_dir root d children hres]
    unfold digest_files
    rw [digest_files_go_children root d children hres hnd children [] (fun c hc => hc)]
    rfl
  · intro children' hperm k
    cases hv : dget (digestNode (pathStr d) (.dir children)) k with
    | some v => exact dget_dir_perm_some hd hgdir hperm hv
    | none =>
      cases hv2 : dget (digestNode (pathStr d) (.dir children')) k with
      | none => rfl
      | some w =>
        have hgdir2 : FSNode.good (.dir children') = true := by
          refine good_dir_intro ((hperm.map (fun c => c.1)).nodup hnd) ?_
          intro c hc
          exact hspec c (hperm.mem_iff.mpr hc)
        have := dget_dir_perm_some hd hgdir2 hperm.symm hv2
        rw [hv] at this
        exact Option.noConfusion this

/-- C7 witness: a directory with two files, and the swap permutation. -/
theorem digest_files_dir_witness :
    digest_files (.dir [("out", .dir [("a", .file [1]), ("b", .file [2])])])
        [["out"]] =
      digest_files (.dir [("out", .dir [("a", .file [1]), ("b", .file [2])])])
        [["out", "a"], ["out", "b"]] ∧
    ∀ k, dget (digestNode (pathStr ["out"])
        (.dir [("b", .file [2]), ("a", .file [1])])) k =
      dget (digestNode (pathStr ["out"])
        (.dir [("a", .file [1]), ("b", .file [2])])) k := by
  have h := digest_files_dir
    (.dir [("out", .dir [("a", .file [1]), ("b", .file [2])])]) ["out"]
    [("a", .file [1]), ("b", .file [2])] (by decide) (by decide) rfl
  exact ⟨h.1, h.2 [("b", .file [2]), ("a", .file [1])] (by
    exact List.Perm.swap _ _ [])⟩

/-! ## Claim C4: archive overlay in the snapshot -/

/-- A string free of the "#" separator that archive keys are built from. -/
def nameHashFree (s : String) : Bool := !(s.data.contains '#')

mutual
/-- A tree whose names contain no "#", as ordinary build outputs do. -/
def FSNode.hashFree : FSNode → Bool
  | .symlink _ => true
  | .file _ => true
  | .dir children => childrenHashFree children
/-- Hash-freeness of a list of named children. -/
def childrenHashFree : List (String × FSNode) → Bool
  | [] => true
  | c :: rest => nameHashFree c.1 && c.2.hashFree && childrenHashFree rest
end

theorem nameHashFree_spec {s : String} (h : nameHashFree s = true) :
    ∀ ch ∈ s.data, ch ≠ '#' := by
  intro ch hch hc
  unfold nameHashFree at h
  rw [Bool.not_eq_true'] at h
  rw [hc] at hch
  have hmem : s.data.contains '#' = true := List.elem_eq_true_of_mem hch
  rw [hmem] at h
  cases h

theorem nameHashFree_intro {s : String} (h : ∀ ch ∈ s.data, ch ≠ '#') :
    nameHashFree s = true := by
  unfold nameHashFree
  rw [Bool.not_eq_true']
  cases hc : s.data.contains '#' with
  | false => rfl
  | true =>
    have := List.mem_of_elem_eq_true hc
    exact absurd rfl (h '#' this)

theorem childrenHashFree_spec {children : List (String × FSNode)}
    (h : childrenHashFree children = true) :
    ∀ c ∈ children, nameHashFree c.1 = true ∧ c.2.hashFree = true := by
  induction children with
  | nil =>
    intro c hc
    cases hc
  | cons d rest ih =>
    have heq : childrenHashFree (d :: rest) =
        (nameHashFree d.1 && d.2.hashFree && childrenHashFree rest) := rfl
    rw [heq, Bool.and_eq_true, Bool.and_eq_true] at h
    intro c hc
    rcases List.mem_cons.mp hc with h1 | h1
    · exact h1 ▸ ⟨h.1.1, h.1.2⟩
    · exact ih h.2 c h1

theorem pjoin_hashFree {s c : String} (hs : nameHashFree s = true)
    (hc : nameHashFree c = true) : nameHashFree (pjoin s c) = true := by
  unfold pjoin
  by_cases h : s = ""
  · rw [if_pos h]
    exact hc
  · rw [if_neg h]
    refine nameHashFree_intro ?_
    intro ch hch
    rw [String.data_append, String.data_append] at hch
    rcases List.mem_append.mp hch with h1 | h1
    · rcases List.mem_append.mp h1 with h2 | h2
      · exact nameHashFree_spec hs ch h2
      · intro hcc
        rw [hcc] at h2
        simp at h2
    · exact nameHashFree_spec hc ch h1


theorem hashFree_resolve {root : FSNode} {p : FPath} {n : FSNode}
    (hf : root.hashFree = true) (h : resolve root p = some n) :
    n.hashFree = true := by
  induction p generalizing root with
  | nil =>
    cases root <;> (cases h; exact hf)
  | cons c rest ih =>
    cases root with
    | symlink t => cases h
    | file co => cases h
    | dir children =>
      revert h
      show (match children.find? (fun x => x.1 == c) with
        | some x => resolve x.2 rest
        | none => none) = some n → _
      cases hfind : children.find? (fun x => x.1 == c) with
      | none =>
        intro h
        cases h
      | some x =>
        intro h
        have hx := List.mem_of_find?_eq_some hfind
        have hcf : childrenHashFree children = true := hf
        exact ih ((childrenHashFree_spec hcf x hx).2) h

theorem mem_dkeys_foldl_pymerge {ms : List DigestMap} {acc : DigestMap} {k : String}
    (h : k ∈ dkeys (ms.foldl pymerge acc)) :
    k ∈ dkeys acc ∨ ∃ m ∈ ms, k ∈ dkeys m := by
  rcases mem_dkeys.mp h with ⟨v, hv⟩
  rcases mem_foldl_pymerge hv with h1 | h1
  · exact Or.inl (mem_dkeys.mpr ⟨v, h1⟩)
  · rcases h1 with ⟨m, hm, hx⟩
    exact Or.inr ⟨m, hm, mem_dkeys.mpr ⟨v, hx⟩⟩

theorem digestNode_keys_hashFree (n : FSNode) :
    ∀ (s : String), n.hashFree = true → nameHashFree s = true →
      ∀ k ∈ dkeys (digestNode s n), nameHashFree k = true := by
  induction n using FSNode.rec_size with
  | hsym t =>
    intro s _ hs k hk
    have heq : dkeys (digestNode s (.symlink t)) = [s] := rfl
    rw [heq, List.mem_singleton] at hk
    exact hk ▸ hs
  | hfile c =>
    intro s _ hs k hk
    have heq : dkeys (digestNode s (.file c)) = [s] := rfl
    rw [heq, List.mem_singleton] at hk
    exact hk ▸ hs
  | hdir children ih =>
    intro s hhf hs k hk
    have hcf : childrenHashFree children = true := hhf
    have heq : digestNode s (.dir children) = (contribs s children).foldl pymerge [] := rfl
    rw [heq] at hk
    rcases mem_dkeys_foldl_pymerge hk with h1 | h1
    · cases h1
    · rcases h1 with ⟨m, hm, hkm⟩
      rcases mem_contribs hm with ⟨c, hc, hmeq⟩
      subst hmeq
      have hspec := childrenHashFree_spec hcf c hc
      exact ih c hc (pjoin s c.1) hspec.2 (pjoin_hashFree hs hspec.1) k hkm

theorem pathStr_hashFree {p : FPath} (hcan : canonicalPath p = true)
    (hhf : ∀ c ∈ p, nameHashFree c = true) : nameHashFree (pathStr p) = true := by
  cases p with
  | nil =>
    refine nameHashFree_intro ?_
    intro ch hch
    cases hch
  | cons c rest =>
    unfold canonicalPath at hcan
    rw [List.all_cons, Bool.and_eq_true] at hcan
    have hc := canonicalName_spec hcan.1
    refine nameHashFree_intro ?_
    intro ch hch
    rw [pathStr_data_cons c rest hc.1] at hch
    rcases List.mem_append.mp hch with h1 | h1
    · exact nameHashFree_spec (hhf c (List.mem_cons_self c rest)) ch h1
    · rcases List.mem_flatMap.mp h1 with ⟨x, hx, hchx⟩
      rcases List.mem_cons.mp hchx with h2 | h2
      · intro hcc
        rw [hcc] at h2
        cases h2
      · exact nameHashFree_spec (hhf x (List.mem_cons_of_mem c hx)) ch h2

theorem digest_files_keys_hashFree {root : FSNode} {files : List FPath}
    {fm : DigestMap}
    (hhf : root.hashFree = true)
    (hcan : ∀ p ∈ files, canonicalPath p = true)
    (hkf : ∀ p ∈ files, ∀ c ∈ p, nameHashFree c = true)
    (hfm : digest_files root files = .ok fm) :
    ∀ k ∈ dkeys fm, nameHashFree k = true := by
  intro k hk
  rcases mem_dkeys.mp hk with ⟨v, hv⟩
  rcases mem_digest_files_go hfm hv with h1 | h1
  · cases h1
  · rcases h1 with ⟨p, hp, n, hres, hmem⟩
    have hk2 : k ∈ dkeys (digestNode (pathStr p) n) := mem_dkeys.mpr ⟨v, hmem⟩
    exact digestNode_keys_hashFree n (pathStr p) (hashFree_resolve hhf hres)
      (pathStr_hashFree (hcan p hp) (hkf p hp)) k hk2

theorem nodupKeys_zip_fold (archive : String) (all : List ZipEntry)
    (entries : List ZipEntry) :
    ∀ (acc : DigestMap), NodupKeys acc →
      NodupKeys (entries.foldl (fun acc2 info =>
        let acc1 := dinsert acc2 (archive ++ "#" ++ info.filename ++ "#date_time")
          (_digest_json_date_time info.date_time)
        match all.find? (fun e => e.filename == info.filename) with
        | some e => dinsert acc1 (archive ++ "#" ++ info.filename) (sha256hex e.content)
        | none => acc1) acc) := by
  induction entries with
  | nil =>
    intro acc hacc
    exact hacc
  | cons e rest ih =>
    intro acc hacc
    simp only [List.foldl_cons]
    cases hf : all.find? (fun e2 => e2.filename == e.filename) with
    | some x => exact ih _ (nodupKeys_dinsert _ _ (nodupKeys_dinsert _ _ hacc))
    | none => exact ih _ (nodupKeys_dinsert _ _ hacc)

theorem nodupKeys_digest_zip_archive (archive : String) (entries : List ZipEntry) :
    NodupKeys (_digest_zip_archive archive entries) := by
  unfold _digest_zip_archive
  exact nodupKeys_zip_fold archive entries entries _
    (nodupKeys_dinsert _ _ (show NodupKeys ([] : DigestMap) from List.nodup_nil))

theorem mem_dkeys_zip_fold (archive : String) (all : List ZipEntry)
    (entries : List ZipEntry) :
    ∀ (acc : DigestMap) (k : String),
      k ∈ dkeys (entries.foldl (fun acc2 info =>
        let acc1 := dinsert acc2 (archive ++ "#" ++ info.filename ++ "#date_time")
          (_digest_json_date_time info.date_time)
        match all.find? (fun e => e.filename == info.filename) with
        | some e => dinsert acc1 (archive ++ "#" ++ info.filename) (sha256hex e.content)
        | none => acc1) acc) →
      k ∈ dkeys acc ∨ ∃ e ∈ entries,
        k = archive ++ "#" ++ e.filename ++ "#date_time" ∨
        k = archive ++ "#" ++ e.filename := by
  induction entries with
  | nil =>
    intro acc k hk
    exact Or.inl hk
  | cons e rest ih =>
    intro acc k hk
    simp only [List.foldl_cons] at hk
    have hstep : ∀ acc2, k ∈ dkeys acc2 →
        (k ∈ dkeys acc ∨ ∃ e2 ∈ e :: rest,
          k = archive ++ "#" ++ e2.filename ++ "#date_time" ∨
          k = archive ++ "#" ++ e2.filename) →
        True := fun _ _ _ => trivial
    cases hf : all.find? (fun e2 => e2.filename == e.filename) with
    | some x =>
      rw [hf] at hk
      rcases ih _ k hk with h1 | h1
      · rcases mem_dkeys_dinsert.mp h1 with h2 | h2
        · rcases mem_dkeys_dinsert.mp h2 with h3 | h3
          · exact Or.inl h3
          · exact Or.inr ⟨e, List.mem_cons_self e rest, Or.inl h3⟩
        · exact Or.inr ⟨e, List.mem_cons_self e rest, Or.inr h2⟩
      · rcases h1 with ⟨e2, he2, hk2⟩
        exact Or.inr ⟨e2, List.mem_cons_of_mem e he2, hk2⟩
    | none =>
      rw [hf] at hk
      rcases ih _ k hk with h1 | h1
      · rcases mem_dkeys_dinsert.mp h1 with h2 | h2
        · exact Or.inl h2
        · exact Or.inr ⟨e, List.mem_cons_self e rest, Or.inl h2⟩
      · rcases h1 with ⟨e2, he2, hk2⟩
        exact Or.inr ⟨e2, List.mem_cons_of_mem e he2, hk2⟩

theorem zip_keys_shape {archive : String} {entries : List ZipEntry} {k : String}
    (h : k ∈ dkeys (_digest_zip_archive archive entries)) :
    ∃ t, k.data = archive.data ++ '#' :: t := by
  unfold _digest_zip_archive at h
  rcases mem_dkeys_zip_fold archive entries entries _ k h with h1 | h1
  · rcases mem_dkeys_dinsert.mp h1 with h2 | h2
    · cases h2
    · exact ⟨"namelist".data, h2 ▸ nmK_data archive⟩
  · rcases h1 with ⟨e, _, hk | hk⟩
    · exact ⟨e.filename.data ++ "#date_time".data, hk ▸ dtK_data archive e.filename⟩
    · exact ⟨e.filename.data, hk ▸ ctK_data archive e.filename⟩

theorem dkeys_zip_fold_mono (archive : String) (all : List ZipEntry)
    (entries : List ZipEntry) :
    ∀ (acc : DigestMap) (k : String), k ∈ dkeys acc →
      k ∈ dkeys (entries.foldl (fun acc2 info =>
        let acc1 := dinsert acc2 (archive ++ "#" ++ info.filename ++ "#date_time")
          (_digest_json_date_time info.date_time)
        match all.find? (fun e => e.filename == info.filename) with
        | some e => dinsert acc1 (archive ++ "#" ++ info.filename) (sha256hex e.content)
        | none => acc1) acc) := by
  induction entries with
  | nil =>
    intro acc k hk
    exact hk
  | cons e rest ih =>
    intro acc k hk
    simp only [List.foldl_cons]
    cases hf : all.find? (fun e2 => e2.filename == e.filename) with
    | some x =>
      exact ih _ k (mem_dkeys_dinsert.mpr (Or.inl (mem_dkeys_dinsert.mpr (Or.inl hk))))
    | none =>
      exact ih _ k (mem_dkeys_dinsert.mpr (Or.inl hk))

theorem zip_nm_present (archive : String) (entries : List ZipEntry) :
    (archive ++ "#namelist") ∈ dkeys (_digest_zip_archive archive entries) := by
  unfold _digest_zip_archive
  exact dkeys_zip_fold_mono archive entries entries _ _
    (mem_dkeys_dinsert.mpr (Or.inr rfl))

theorem zip_entry_keys_present (archive : String) (all : List ZipEntry)
    (hfind : ∀ e ∈ all, ∃ x, all.find? (fun e2 => e2.filename == e.filename) = some x) :
    ∀ (entries : List ZipEntry), (∀ e ∈ entries, e ∈ all) →
    ∀ (acc : DigestMap) (e : ZipEntry), e ∈ entries →
      (archive ++ "#" ++ e.filename ++ "#date_time") ∈
        dkeys (entries.foldl (fun acc2 info =>
          let acc1 := dinsert acc2 (archive ++ "#" ++ info.filename ++ "#date_time")
            (_digest_json_date_time info.date_time)
          match all.find? (fun e2 => e2.filename == info.filename) with
          | some e2 => dinsert acc1 (archive ++ "#" ++ info.filename) (sha256hex e2.content)
          | none => acc1) acc) ∧
      (archive ++ "#" ++ e.filename) ∈
        dkeys (entries.foldl (fun acc2 info =>
          let acc1 := dinsert acc2 (archive ++ "#" ++ info.filename ++ "#date_time")
            (_digest_json_date_time info.date_time)
          match all.find? (fun e2 => e2.filename == info.filename) with
          | some e2 => dinsert acc1 (archive ++ "#" ++ info.filename) (sha256hex e2.content)
          | none => acc1) acc) := by
  intro entries
  induction entries with
  | nil =>
    intro _ acc e he
    cases he
  | cons e0 rest ih =>
    intro hsub acc e he
    simp only [List.foldl_cons]
    obtain ⟨x, hx⟩ := hfind e0 (hsub e0 (List.mem_cons_self e0 rest))
    rw [hx]
    rcases List.mem_cons.mp he with h1 | h1
    · subst h1
      constructor
      · exact dkeys_zip_fold_mono archive all rest _ _
          (mem_dkeys_dinsert.mpr (Or.inl (mem_dkeys_dinsert.mpr (Or.inr rfl))))
      · exact dkeys_zip_fold_mono archive all rest _ _
          (mem_dkeys_dinsert.mpr (Or.inr rfl))
    · exact ih (fun e2 h2 => hsub e2 (List.mem_cons_of_mem e0 h2)) _ e h1

theorem dget_cmFlatten (maps : List DigestMap)
    (h : ∀ m ∈ maps, NodupKeys m) (k : String) :
    dget (cmFlatten maps) k = cmGet maps k := by
  induction maps with
  | nil => rfl
  | cons m rest ih =>
    show dget (pymerge (cmFlatten rest) m) k = _
    rw [dget_pymerge _ (h m (List.mem_cons_self m rest))]
    show (dget m k).or (dget (cmFlatten rest) k) = _
    cases hm : dget m k with
    | some v =>
      show Option.or (some v) _ = _
      rw [show cmGet (m :: rest) k = (match dget m k with
        | some v => some v
        | none => cmGet rest k) from rfl, hm]
      rfl
    | none =>
      rw [show cmGet (m :: rest) k = (match dget m k with
        | some v => some v
        | none => cmGet rest k) from rfl, hm]
      rw [ih (fun m2 h2 => h m2 (List.mem_cons_of_mem m h2))]
      rfl

theorem digest_archives_ok (zfs : ZipFS) (ents : String → List ZipEntry) :
    ∀ (ars : List String),
      (∀ ar ∈ ars, (pyEndsWith ar ".zip" || pyEndsWith ar ".jar" ||
        pyEndsWith ar ".war") = true ∧ zfs ar = some (ents ar)) →
      digest_archives zfs ars =
        .ok (ars.map (fun ar => _digest_zip_archive ar (ents ar))) := by
  intro ars
  induction ars with
  | nil =>
    intro _
    rfl
  | cons ar rest ih =>
    intro h
    have ha := h ar (List.mem_cons_self ar rest)
    have harch : digest_archive zfs ar = .ok (_digest_zip_archive ar (ents ar)) := by
      unfold digest_archive
      rw [ha.1, ha.2]
      rfl
    show ((match digest_archive zfs ar with
      | Except.error e => Except.error e
      | Except.ok m =>
        match digest_archives zfs rest with
        | Except.error e => Except.error e
        | Except.ok ms => Except.ok (m :: ms)) : Except PyError (List DigestMap)) = _
    rw [harch, ih (fun ar2 h2 => h ar2 (List.mem_cons_of_mem ar h2))]
    rfl

theorem cmGet_archive_key (fm : DigestMap) (ents : String → List ZipEntry)
    (sa : String) (key : String) (t : List Char)
    (hfm : dget fm key = none)
    (hkeyshape : key.data = sa.data ++ '#' :: t)
    (hpresent : (dget (_digest_zip_archive sa (ents sa)) key).isSome) :
    ∀ (ars : List String), sa ∈ ars →
      (∀ s ∈ ars, nameHashFree s = true) →
      cmGet (fm :: ars.map (fun s => _digest_zip_archive s (ents s))) key =
        dget (_digest_zip_archive sa (ents sa)) key := by
  intro ars
  have hcons : ∀ (rest : List DigestMap), cmGet (fm :: rest) key = cmGet rest key := by
    intro rest
    show (match dget fm key with
      | some v => some v
      | none => cmGet rest key) = _
    rw [hfm]
  induction ars with
  | nil =>
    intro ha
    cases ha
  | cons s2 rest ih =>
    intro ha hhf
    rw [hcons]
    by_cases he : s2 = sa
    · subst he
      show (match dget (_digest_zip_archive s2 (ents s2)) key with
        | some v => some v
        | none => cmGet (rest.map (fun s => _digest_zip_archive s (ents s))) key) = _
      rcases Option.isSome_iff_exists.mp hpresent with ⟨w, hw⟩
      rw [hw]
    · have hnone : dget (_digest_zip_archive s2 (ents s2)) key = none := by
        rw [dget_eq_none]
        intro hmem
        rcases zip_keys_shape hmem with ⟨t2, ht2⟩
        rw [hkeyshape] at ht2
        have hcan := sep_head_cancel ht2
          (nameHashFree_spec (hhf sa ha))
          (nameHashFree_spec (hhf s2 (List.mem_cons_self s2 rest)))
          (Or.inr ⟨t, rfl⟩) (Or.inr ⟨t2, rfl⟩)
        exact he (String.ext hcan.1.symm)
      show (match dget (_digest_zip_archive s2 (ents s2)) key with
        | some v => some v
        | none => cmGet (rest.map (fun s => _digest_zip_archive s (ents s))) key) = _
      rw [hnone]
      have ha' : sa ∈ rest := by
        rcases List.mem_cons.mp ha with h1 | h1
        · exact absurd h1.symm he
        · exact h1
      have := ih ha' (fun s h2 => hhf s (List.mem_cons_of_mem s2 h2))
      rw [hcons] at this
      exact this

theorem key_with_hash_not_hashFree {key sa : String} {t : List Char}
    (hshape : key.data = sa.data ++ '#' :: t) : nameHashFree key = false := by
  cases hc : nameHashFree key with
  | false => rfl
  | true =>
    exfalso
    refine nameHashFree_spec hc '#' ?_ rfl
    rw [hshape]
    exact List.mem_append.mpr (Or.inr (List.mem_cons_self _ _))

/-- C4: for every declared output archive `a` — a regular file in the
output tree — the snapshot built by `digest_outputs` contains, at the
same time, the whole-archive file-level content hash under the key `a`
itself (the File Digester value, which the archive overlay never
replaces: the ChainMap gives the file map precedence and the archive maps
never carry a "#"-free key), and the archive-granular keys `a#namelist`,
`a#<entry>#date_time` and `a#<entry>`, looked up with exactly the values
of the Archive Digester map for `a`. -/
theorem digest_outputs_archive_overlay
    (root : FSNode) (zfs : ZipFS) (files archives : List FPath)
    (a : FPath) (raw : List Nat) (ents : String → List ZipEntry) (fm : DigestMap)
    (hg : root.good = true)
    (hhf : root.hashFree = true)
    (hcanon : ∀ p ∈ files ++ archives, canonicalPath p = true)
    (hkf : ∀ p ∈ files ++ archives, ∀ c ∈ p, nameHashFree c = true)
    (ha : a ∈ archives)
    (hres : resolve root a = some (.file raw))
    (harch : ∀ a2 ∈ archives, (pyEndsWith (pathStr a2) ".zip" ||
      pyEndsWith (pathStr a2) ".jar" || pyEndsWith (pathStr a2) ".war") = true ∧
      zfs (pathStr a2) = some (ents (pathStr a2)))
    (hfm : digest_files root (files ++ archives) = .ok fm) :
    ∃ snap, digest_outputs root zfs files archives = .ok snap ∧
      dget snap (pathStr a) = some ("sha256=" ++ sha256hex raw) ∧
      (dget snap (pathStr a ++ "#namelist") =
        dget (_digest_zip_archive (pathStr a) (ents (pathStr a)))
          (pathStr a ++ "#namelist") ∧
        (dget (_digest_zip_archive (pathStr a) (ents (pathStr a)))
          (pathStr a ++ "#namelist")).isSome) ∧
      ∀ e ∈ ents (pathStr a),
        (dget snap (pathStr a ++ "#" ++ e.filename ++ "#date_time") =
          dget (_digest_zip_archive (pathStr a) (ents (pathStr a)))
            (pathStr a ++ "#" ++ e.filename ++ "#date_time") ∧
         (dget (_digest_zip_archive (pathStr a) (ents (pathStr a)))
            (pathStr a ++ "#" ++ e.filename ++ "#date_time")).isSome) ∧
        (dget snap (pathStr a ++ "#" ++ e.filename) =
          dget (_digest_zip_archive (pathStr a) (ents (pathStr a)))
            (pathStr a ++ "#" ++ e.filename) ∧
         (dget (_digest_zip_archive (pathStr a) (ents (pathStr a)))
            (pathStr a ++ "#" ++ e.filename)).isSome) := by
  have hars : digest_archives zfs (archives.map pathStr) =
      .ok ((archives.map pathStr).map (fun s => _digest_zip_archive s (ents s))) := by
    refine digest_archives_ok zfs ents (archives.map pathStr) ?_
    intro ar har
    rcases List.mem_map.mp har with ⟨a2, ha2, heq⟩
    exact heq ▸ harch a2 ha2
  have hout : digest_outputs root zfs files archives =
      .ok (cmFlatten (fm ::
        (archives.map pathStr).map (fun s => _digest_zip_archive s (ents s)))) := by
    unfold digest_outputs
    rw [hfm, hars]
  have hndall : ∀ m ∈ fm ::
      (archives.map pathStr).map (fun s => _digest_zip_archive s (ents s)),
      NodupKeys m := by
    intro m hm
    rcases List.mem_cons.mp hm with h1 | h1
    · exact h1 ▸ nodupKeys_digest_files_go
        (show NodupKeys ([] : DigestMap) from List.nodup_nil) hfm
    · rcases List.mem_map.mp h1 with ⟨s, _, heq⟩
      exact heq ▸ nodupKeys_digest_zip_archive s (ents s)
  have hsnap : ∀ k, dget (cmFlatten (fm ::
      (archives.map pathStr).map (fun s => _digest_zip_archive s (ents s)))) k =
      cmGet (fm ::
        (archives.map pathStr).map (fun s => _digest_zip_archive s (ents s))) k :=
    fun k => dget_cmFlatten _ hndall k
  have hamem : a ∈ files ++ archives := List.mem_append.mpr (Or.inr ha)
  have hsa_mem : pathStr a ∈ archives.map pathStr := List.mem_map.mpr ⟨a, ha, rfl⟩
  have hsa_hf : ∀ s ∈ archives.map pathStr, nameHashFree s = true := by
    intro s hs
    rcases List.mem_map.mp hs with ⟨a2, ha2, heq⟩
    have hmem2 : a2 ∈ files ++ archives := List.mem_append.mpr (Or.inr ha2)
    exact heq ▸ pathStr_hashFree (hcanon a2 hmem2) (hkf a2 hmem2)
  have hfm_hf := digest_files_keys_hashFree hhf hcanon hkf hfm
  have hfm_none : ∀ (key : String) (t : List Char),
      key.data = (pathStr a).data ++ '#' :: t → dget fm key = none := by
    intro key t hshape
    cases hd : dget fm key with
    | none => rfl
    | some v =>
      exfalso
      have hk : key ∈ dkeys fm := mem_dkeys.mpr ⟨v, dget_mem hd⟩
      have := hfm_hf key hk
      rw [key_with_hash_not_hashFree hshape] at this
      cases this
  have hkey_lookup : ∀ (key : String) (t : List Char),
      key.data = (pathStr a).data ++ '#' :: t →
      key ∈ dkeys (_digest_zip_archive (pathStr a) (ents (pathStr a))) →
      dget (cmFlatten (fm ::
        (archives.map pathStr).map (fun s => _digest_zip_archive s (ents s)))) key =
        dget (_digest_zip_archive (pathStr a) (ents (pathStr a))) key ∧
      (dget (_digest_zip_archive (pathStr a) (ents (pathStr a))) key).isSome := by
    intro key t hshape hpres
    have hps : (dget (_digest_zip_archive (pathStr a) (ents (pathStr a))) key).isSome := by
      cases hd : dget (_digest_zip_archive (pathStr a) (ents (pathStr a))) key with
      | some v => rfl
      | none => exact absurd (dget_eq_none.mp hd) (fun hc => hc hpres)
    refine ⟨?_, hps⟩
    rw [hsnap key]
    exact cmGet_archive_key fm ents (pathStr a) key t
      (hfm_none key t hshape) hshape hps (archives.map pathStr) hsa_mem hsa_hf
  refine ⟨_, hout, ?_, ?_, ?_⟩
  · -- whole-archive file-level hash
    rw [hsnap (pathStr a)]
    have hv : dget (digestNode (pathStr a) (.file raw)) (pathStr a) =
        some ("sha256=" ++ sha256hex raw) := by
      have heq : digestNode (pathStr a) (.file raw) =
          [(pathStr a, "sha256=" ++ sha256hex raw)] := rfl
      rw [heq, dget_cons, if_pos rfl]
    have hfma : dget fm (pathStr a) = some ("sha256=" ++ sha256hex raw) := by
      rw [dget_digest_files hfm]
      exact contribGet_eq hg hcanon hamem hres hv
    show (match dget fm (pathStr a) with
      | some v => some v
      | none => cmGet ((archives.map pathStr).map
          (fun s => _digest_zip_archive s (ents s))) (pathStr a)) = _
    rw [hfma]
  · exact hkey_lookup (pathStr a ++ "#namelist") "namelist".data
      (nmK_data (pathStr a)) (zip_nm_present (pathStr a) (ents (pathStr a)))
  · intro e he
    have hpresent := zip_entry_keys_present (pathStr a) (ents (pathStr a))
      (fun e2 he2 => find?_entry_isSome he2) (ents (pathStr a)) (fun e2 h2 => h2)
      (dinsert [] (pathStr a ++ "#namelist")
        (_digest_json_namelist ((ents (pathStr a)).map (fun e2 => e2.filename)))) e he
    constructor
    · exact hkey_lookup (pathStr a ++ "#" ++ e.filename ++ "#date_time")
        (e.filename.data ++ "#date_time".data) (dtK_data (pathStr a) e.filename)
        hpresent.1
    · exact hkey_lookup (pathStr a ++ "#" ++ e.filename) e.filename.data
        (ctK_data (pathStr a) e.filename) hpresent.2

theorem digest_outputs_archive_overlay_witness :
    ∃ snap, digest_outputs (.dir [("a.zip", .file [49])])
        (fun s => if s = "a.zip" then some [⟨"x", [1980,1,1,0,0,0], [50]⟩] else none)
        [] [["a.zip"]] = .ok snap ∧
      dget snap (pathStr ["a.zip"]) = some ("sha256=" ++ sha256hex [49]) ∧
      (dget snap (pathStr ["a.zip"] ++ "#namelist") =
        dget (_digest_zip_archive (pathStr ["a.zip"])
          ((fun _ : String => [(⟨"x", [1980,1,1,0,0,0], [50]⟩ : ZipEntry)]) (pathStr ["a.zip"])))
          (pathStr ["a.zip"] ++ "#namelist") ∧
        (dget (_digest_zip_archive (pathStr ["a.zip"])
          ((fun _ : String => [(⟨"x", [1980,1,1,0,0,0], [50]⟩ : ZipEntry)]) (pathStr ["a.zip"])))
          (pathStr ["a.zip"] ++ "#namelist")).isSome) ∧
      ∀ e ∈ (fun _ : String => [(⟨"x", [1980,1,1,0,0,0], [50]⟩ : ZipEntry)]) (pathStr ["a.zip"]),
        (dget snap (pathStr ["a.zip"] ++ "#" ++ e.filename ++ "#date_time") =
          dget (_digest_zip_archive (pathStr ["a.zip"])
            ((fun _ : String => [(⟨"x", [1980,1,1,0,0,0], [50]⟩ : ZipEntry)]) (pathStr ["a.zip"])))
            (pathStr ["a.zip"] ++ "#" ++ e.filename ++ "#date_time") ∧
         (dget (_digest_zip_archive (pathStr ["a.zip"])
            ((fun _ : String => [(⟨"x", [1980,1,1,0,0,0], [50]⟩ : ZipEntry)]) (pathStr ["a.zip"])))
            (pathStr ["a.zip"] ++ "#" ++ e.filename ++ "#date_time")).isSome) ∧
        (dget snap (pathStr ["a.zip"] ++ "#" ++ e.filename) =
          dget (_digest_zip_archive (pathStr ["a.zip"])
            ((fun _ : String => [(⟨"x", [1980,1,1,0,0,0], [50]⟩ : ZipEntry)]) (pathStr ["a.zip"])))
            (pathStr ["a.zip"] ++ "#" ++ e.filename) ∧
         (dget (_digest_zip_archive (pathStr ["a.zip"])
            ((fun _ : String => [(⟨"x", [1980,1,1,0,0,0], [50]⟩ : ZipEntry)]) (pathStr ["a.zip"])))
            (pathStr ["a.zip"] ++ "#" ++ e.filename)).isSome) :=
  digest_outputs_archive_overlay
    (.dir [("a.zip", .file [49])])
    (fun s => if s = "a.zip" then some [⟨"x", [1980,1,1,0,0,0], [50]⟩] else none)
    [] [["a.zip"]] ["a.zip"] [49]
    (fun _ => [⟨"x", [1980,1,1,0,0,0], [50]⟩])
    [("a.zip", "sha256=" ++ sha256hex [49])]
    (by decide) (by decide) (by decide) (by decide) (by decide)
    rfl
    (by intro a2 h2
        cases h2 with
        | head => exact ⟨by decide, rfl⟩
        | tail _ h3 => cases h3)
    rfl
